import Mathlib

/-!
Verification of the obsidian-go-mcp vault mutation engine.

Go strings are modelled as `List Char` (one element per byte/rune; all
claims under study are about exact content, so the unit of indexing only
needs to be consistent).  Go library functions (`strings.Count`,
`strings.Index`, `strings.Replace`, `strings.Split`, `filepath.Clean`,
`filepath.Rel`, ...) are embedded as executable Lean functions with the
same observable behaviour, and the MCP tool handlers from
`internal/vault` are embedded as pure functions over an explicit
file-system state.  Context rendering (`context_lines`) is fixed at its
default `0` throughout: no claim under study mentions the context block,
and with `context_lines = 0` the handlers' responses are exactly the
short messages embedded here.
-/

namespace ObsidianMCP

/-- Go `byte`/`rune` content of a file, one `Char` per unit. -/
abbrev Str := List Char

/-- ASCII lower-casing of one character, as `strings.ToLower` behaves on
the ASCII range (the only range exercised by frontmatter keys and the
claims under study). -/
def lowerC (c : Char) : Char :=
  if 65 ≤ c.toNat ∧ c.toNat ≤ 90 then Char.ofNat (c.toNat + 32) else c

/-- Lower-casing of a whole string (model of `strings.ToLower`). -/
def lowerL (s : Str) : Str := s.map lowerC

/-- Model of `strings.EqualFold` restricted to simple case folding. -/
def eqFold (a b : Str) : Bool := lowerL a = lowerL b

/-- Boolean prefix test: `begins p s` iff `p` is a prefix of `s`
(model of `strings.HasPrefix s p`). -/
def begins : Str → Str → Bool
  | [], _ => true
  | _ :: _, [] => false
  | a :: p, b :: s => a = b && begins p s

/-- Boolean suffix test (model of `strings.HasSuffix s p`). -/
def endsL (p s : Str) : Bool := begins p.reverse s.reverse

/-- Whitespace for Go's regexp class `\s` (`[\t\n\f\r ]`). -/
def isReSpace (c : Char) : Bool :=
  c = ' ' || c = '\t' || c = '\n' || c = '\x0c' || c = '\r'

/-- Whitespace for `strings.TrimSpace` (ASCII portion of
`unicode.IsSpace`). -/
def isGoSpace (c : Char) : Bool :=
  c = ' ' || c = '\t' || c = '\n' || c = '\x0b' || c = '\x0c' || c = '\r'

/-- Model of `strings.TrimSpace`. -/
def trimSpace (s : Str) : Str :=
  ((s.dropWhile isGoSpace).reverse.dropWhile isGoSpace).reverse

/-- Model of `strings.TrimRight(s, "\n")`. -/
def trimNLRight (s : Str) : Str :=
  (s.reverse.dropWhile (fun c => c = '\n')).reverse

/-- Model of `strings.Trim(s, "\x22'")`: strip leading and trailing
double- or single-quote characters. -/
def trimQuotes (s : Str) : Str :=
  let q : Char → Bool := fun c => c = '"' || c = '\''
  ((s.dropWhile q).reverse.dropWhile q).reverse

/-- Model of `strings.Split(s, sep)` for a one-character separator;
total, always returns at least one (possibly empty) field. -/
def splitC (sep : Char) : Str → List Str
  | [] => [[]]
  | c :: rest =>
    match splitC sep rest with
    | [] => [[]]
    | h :: t => if c = sep then [] :: h :: t else (c :: h) :: t

/-- Model of `strings.Split(s, "\n")`. -/
def splitNL : Str → List Str := splitC '\n'

/-- Model of `strings.Join(lines, "\n")`. -/
def joinNL : List Str → Str
  | [] => []
  | [l] => l
  | l :: ls => l ++ '\n' :: joinNL ls

/-- Decimal rendering of a natural number (model of `fmt`'s `%d`). -/
def natStr (n : Nat) : Str := (Nat.repr n).data

/-- First index of a line satisfying `p` (the mathematical "first such
line"). -/
def firstIdx (p : Str → Bool) : List Str → Option Nat
  | [] => none
  | l :: rest => if p l then some 0 else (firstIdx p rest).map (· + 1)

/-! ### Go `strings` search and replace -/

/-- Scanning worker for `strings.Count` with a non-empty pattern
`d :: ds`: counts non-overlapping occurrences, leftmost-first.  The
second argument is the number of characters still to skip after a match
(structural recursion standing in for Go's jump past the match). -/
def countAux (d : Char) (ds : Str) : Str → Nat → Nat
  | [], _ => 0
  | _ :: rest, Nat.succ k => countAux d ds rest k
  | c :: rest, 0 =>
    if begins (d :: ds) (c :: rest) then 1 + countAux d ds rest ds.length
    else countAux d ds rest 0

/-- Model of `strings.Count`: for an empty pattern Go returns
`1 + utf8.RuneCountInString(s)`, i.e. `s.length + 1` here. -/
def countGo (s sub : Str) : Nat :=
  match sub with
  | [] => s.length + 1
  | d :: ds => countAux d ds s 0

/-- Scanning worker for `strings.Index` with a non-empty pattern. -/
def idxAux (d : Char) (ds : Str) : Str → Option Nat
  | [] => none
  | c :: rest =>
    if begins (d :: ds) (c :: rest) then some 0
    else (idxAux d ds rest).map (· + 1)

/-- Model of `strings.Index` (`none` plays the role of Go's `-1`). -/
def indexOfGo (s sub : Str) : Option Nat :=
  match sub with
  | [] => some 0
  | d :: ds => idxAux d ds s

/-- Boolean occurrence test (model of `strings.Contains`). -/
def containsGo (s sub : Str) : Bool := (indexOfGo s sub).isSome

/-- Model of `strings.Replace(s, old, new, 1)`.  Go inserts `new` at the
start when `old` is empty and `n = 1`. -/
def replace1Go (s old new : Str) : Str :=
  match old with
  | [] => new ++ s
  | _ :: _ =>
    match indexOfGo s old with
    | none => s
    | some i => s.take i ++ new ++ s.drop (i + old.length)

/-- Scanning worker for `strings.ReplaceAll` with a non-empty pattern;
the `Nat` is the number of already-matched characters still to pass over
(structural recursion standing in for Go's jump past the match). -/
def raAux (d : Char) (ds : Str) (new : Str) : Str → Nat → Str
  | [], _ => []
  | _ :: rest, Nat.succ k => raAux d ds new rest k
  | c :: rest, 0 =>
    if begins (d :: ds) (c :: rest) then new ++ raAux d ds new rest ds.length
    else c :: raAux d ds new rest 0

/-- Model of `strings.ReplaceAll`.  For an empty pattern Go interleaves
`new` at every rune boundary of `s`, including both ends. -/
def replaceAllGo (s old new : Str) : Str :=
  match old with
  | [] => new ++ s.flatMap (fun c => c :: new)
  | d :: ds => raAux d ds new s 0

/-- Number of positions of `s` at which `sub` occurs (counting
overlapping occurrences; the mathematical reading of "occurs exactly
once"). -/
def countPos (s sub : Str) : Nat :=
  ((Finset.range (s.length + 1)).filter fun i => begins sub (s.drop i) = true).card

/-- Substring-at-position predicate: `sub` occurs in `s` at index `i`. -/
def matchAt (s : Str) (i : Nat) (sub : Str) : Prop :=
  begins sub (s.drop i) = true

instance (s : Str) (i : Nat) (sub : Str) : Decidable (matchAt s i sub) := by
  unfold matchAt; infer_instance

/-! ### Lexical path model (`path/filepath` on slash-separated paths)

A cleaned absolute path is modelled as its list of segments (the vault
root `v.path` is produced by `filepath.Abs(filepath.Clean(path))` in
`New`, so it is such a path).  `filepath.Clean` on an absolute path
resolves `.`/`..`/empty segments purely lexically, dropping `..` at the
root; `filepath.Join(a, b) = Clean(a + "/" + b)`; `filepath.Rel` between
two cleaned absolute paths never returns an error, so the model has no
error branch. -/

/-- One path segment. -/
abbrev Seg := List Char

/-- A cleaned absolute path, as its segment list (`[]` is the root `/`). -/
abbrev GoPath := List Seg

/-- One step of lexical cleaning for absolute paths. -/
def cleanStep (acc : GoPath) (s : Seg) : GoPath :=
  if s = [] ∨ s = ['.'] then acc
  else if s = ['.', '.'] then acc.dropLast
  else acc ++ [s]

/-- Model of `filepath.Clean` on an absolute path given as raw segments. -/
def cleanAbs (segs : List Seg) : GoPath := segs.foldl cleanStep []

/-- Model of `filepath.Join(root, p)` for a cleaned absolute `root` and a
caller-supplied relative path string `p`. -/
def joinPath (root : GoPath) (p : Str) : GoPath :=
  cleanAbs (root ++ splitC '/' p)

/-- Length of the longest common segment run shared by two paths. -/
def commonLen : GoPath → GoPath → Nat
  | [], _ => 0
  | _, [] => 0
  | a :: as, b :: bs => if a = b then commonLen as bs + 1 else 0

/-- Model of `filepath.Rel(base, targ)` for cleaned absolute paths: climb
out of the uncommon part of `base` with `..` segments, then descend into
`targ`; `.` when the paths are equal. -/
def goRel (base targ : GoPath) : GoPath :=
  let k := commonLen base targ
  let r := List.replicate (base.length - k) ['.', '.'] ++ targ.drop k
  if r = [] then [['.']] else r

/-- Model of `Vault.isPathSafe`: `rel, err := filepath.Rel(v.path, Clean(full))`
then `!strings.HasPrefix(rel, "..") && rel != ".."`.  On the segment model
the string test `strings.HasPrefix(rel, "..")` holds exactly when the
first segment of `rel` starts with two dots (segments of a cleaned path
are nonempty, so the prefix cannot straddle a `/`). -/
def isPathSafe (root : GoPath) (full : GoPath) : Bool :=
  let rel := goRel root full
  match rel with
  | [] => false
  | s :: _ => !(begins ['.', '.'] s) && rel ≠ [['.', '.']]

/-- Fixed note extension `".md"`. -/
def mdExt : Str := ['.', 'm', 'd']

/-- Suffix logic shared by the edit/batch/section handlers:
`if !strings.HasSuffix(notePath, ".md") { notePath += ".md" }`. -/
def withMd (p : Str) : Str := if endsL mdExt p then p else p ++ mdExt

/-! ### File-system state and tool results -/

/-- The file system visible to the handlers: an association list from
cleaned absolute paths to file contents. -/
abbrev FS := List (GoPath × Str)

/-- Model of `os.ReadFile` (`none` = `os.IsNotExist`; other I/O errors
are out of the model's scope). -/
def fsRead : FS → GoPath → Option Str
  | [], _ => none
  | (q, c) :: t, p => if q = p then some c else fsRead t p

/-- Model of `os.WriteFile` (create or overwrite). -/
def fsWrite : FS → GoPath → Str → FS
  | [], p, c => [(p, c)]
  | (q, d) :: t, p, c => if q = p then (p, c) :: t else (q, d) :: fsWrite t p c

/-- Model of `os.Remove`. -/
def fsRemove : FS → GoPath → FS
  | [], _ => []
  | (q, d) :: t, p => if q = p then t else (q, d) :: fsRemove t p

/-- Result of one tool call: `mcp.NewToolResultText` or
`mcp.NewToolResultError`. -/
inductive ToolResult where
  | text (msg : Str)
  | fail (msg : Str)
deriving DecidableEq, Repr

/-! ### Handler messages (`fmt.Sprintf` renderings) -/

def pathVaultMsg : Str := ("path must be within vault").data

def mdSuffixMsg : Str := ("path must end with .md").data

def notFoundMsg (p : Str) : Str := ("Note not found: ").data ++ p

def wroteMsg (p : Str) : Str := ("Successfully wrote: ").data ++ p

def deletedMsg (p : Str) : Str := ("Successfully deleted: ").data ++ p

def oldNotFoundMsg (p : Str) : Str := ("old_text not found in ").data ++ p

def ambiguousMsg (c : Nat) (p : Str) : Str :=
  ("Found ").data ++ natStr c ++ (" occurrences of old_text in ").data ++ p ++
    (". Use replace_all=true to replace all, or provide more context to match uniquely.").data

def replacedMsg (n : Nat) (p : Str) : Str :=
  ("Replaced ").data ++ natStr n ++ (" occurrence(s) in ").data ++ p

/-! ### Simple note handlers (`internal/vault/vault.go`)

Each handler takes the already-extracted request parameters (the
`RequireString` missing-parameter branches are outside every claim) and
the current file system, and returns the tool result together with the
file system after the call. -/

/-- Model of `Vault.ReadNoteHandler`. -/
def ReadNoteHandler (root : GoPath) (fs : FS) (path : Str) : ToolResult × FS :=
  if ¬ endsL mdExt path then (.fail mdSuffixMsg, fs)
  else
    let fullPath := joinPath root path
    if ¬ isPathSafe root fullPath then (.fail pathVaultMsg, fs)
    else
      match fsRead fs fullPath with
      | none => (.fail (notFoundMsg path), fs)
      | some content => (.text content, fs)

/-- Model of `Vault.WriteNoteHandler` (directory creation by `MkdirAll`
is implicit: the file-system model has no directory entries). -/
def WriteNoteHandler (root : GoPath) (fs : FS) (path content : Str) :
    ToolResult × FS :=
  if ¬ endsL mdExt path then (.fail mdSuffixMsg, fs)
  else
    let fullPath := joinPath root path
    if ¬ isPathSafe root fullPath then (.fail pathVaultMsg, fs)
    else (.text (wroteMsg path), fsWrite fs fullPath content)

/-- Model of `Vault.DeleteNoteHandler`. -/
def DeleteNoteHandler (root : GoPath) (fs : FS) (path : Str) : ToolResult × FS :=
  if ¬ endsL mdExt path then (.fail mdSuffixMsg, fs)
  else
    let fullPath := joinPath root path
    if ¬ isPathSafe root fullPath then (.fail pathVaultMsg, fs)
    else
      match fsRead fs fullPath with
      | none => (.fail (notFoundMsg path), fs)
      | some _ => (.text (deletedMsg path), fsRemove fs fullPath)

/-- Model of `Vault.EditNoteHandler` (single find-and-replace;
`context_lines = 0`). -/
def EditNoteHandler (root : GoPath) (fs : FS) (path oldText replacementText : Str)
    (replaceAll : Bool) : ToolResult × FS :=
  let notePath := withMd path
  let fullPath := joinPath root notePath
  if ¬ isPathSafe root fullPath then (.fail pathVaultMsg, fs)
  else
    match fsRead fs fullPath with
    | none => (.fail (notFoundMsg notePath), fs)
    | some contentStr =>
      let count := countGo contentStr oldText
      if count = 0 then (.fail (oldNotFoundMsg notePath), fs)
      else if count > 1 ∧ replaceAll = false then
        (.fail (ambiguousMsg count notePath), fs)
      else
        let newContent :=
          if replaceAll then replaceAllGo contentStr oldText replacementText
          else replace1Go contentStr oldText replacementText
        let replaced := if replaceAll then count else 1
        (.text (replacedMsg replaced notePath), fsWrite fs fullPath newContent)

/-! ### Batch edit engine (`BatchEditNoteHandler`, `validateBatchEdits`) -/

/-- One find-and-replace operation of a batch (`editEntry`). -/
structure EditEntry where
  old : Str
  new : Str
deriving DecidableEq, Repr

/-- An `EditEntry` together with its byte offset (`locatedEdit`). -/
structure LocEdit extends EditEntry where
  off : Nat
deriving DecidableEq, Repr

/-- Model of `truncateLine`. -/
def truncateLine (line : Str) (maxChars : Nat) : Str :=
  if line.length ≤ maxChars then line
  else line.take maxChars ++ ("... [").data ++ natStr line.length ++ (" chars total]").data

/-- Rendering of `fmt`'s `%q` simplified to plain surrounding quotes (the
escaping rules of `%q` play no role in any claim). -/
def quoteGo (s : Str) : Str := '"' :: s ++ ['"']

/-- Validation message for an empty `old_text`. -/
def emptyOldMsg (i : Nat) : Str :=
  ("edit ").data ++ natStr (i + 1) ++ (": old_text is empty").data

/-- Validation message for an absent `old_text`. -/
def zeroOldMsg (i : Nat) (old : Str) : Str :=
  ("edit ").data ++ natStr (i + 1) ++ (": old_text not found: ").data ++
    quoteGo (truncateLine old 80)

/-- Validation message for a duplicated `old_text`. -/
def dupOldMsg (i : Nat) (c : Nat) (old : Str) : Str :=
  ("edit ").data ++ natStr (i + 1) ++ (": old_text found ").data ++ natStr c ++
    (" times (must be unique): ").data ++ quoteGo (truncateLine old 80)

/-- One pass over the edits collecting located edits and error lines,
starting at 0-based index `i` (the loop body of `validateBatchEdits`). -/
def collectVal (content : Str) : List EditEntry → Nat → List LocEdit × List Str
  | [], _ => ([], [])
  | e :: rest, i =>
    let (loc, errs) := collectVal content rest (i + 1)
    if e.old = [] then (loc, emptyOldMsg i :: errs)
    else
      let c := countGo content e.old
      if c = 0 then (loc, zeroOldMsg i e.old :: errs)
      else if c > 1 then (loc, dupOldMsg i c e.old :: errs)
      else (⟨e, (indexOfGo content e.old).getD 0⟩ :: loc, errs)

/-- Model of `strings.Join(errors, sep)`. -/
def joinSep (sep : Str) : List Str → Str
  | [] => []
  | [x] => x
  | x :: xs => x ++ sep ++ joinSep sep xs

/-- Aggregated validation report. -/
def batchValFailMsg (notePath : Str) (errs : List Str) : Str :=
  ("Batch edit validation failed for ").data ++ notePath ++ (":\n- ").data ++
    joinSep ('\n' :: ('-' :: [' '])) errs

/-- Overlap error message (`edits %d and %d overlap`). -/
def overlapMsg (notePath : Str) (i : Nat) : Str :=
  ("Batch edit validation failed for ").data ++ notePath ++ (": edits ").data ++
    natStr i ++ (" and ").data ++ natStr (i + 1) ++ (" overlap").data

/-- The overlap loop of `validateBatchEdits` over the offset-sorted list:
returns the 1-based index of the first adjacent overlapping pair. -/
def overlapFind : List LocEdit → Nat → Option Nat
  | a :: b :: t, i =>
    if b.off < a.off + a.old.length then some i else overlapFind (b :: t) (i + 1)
  | _, _ => none

/-- Model of `validateBatchEdits`: collect per-edit failures, reject on
any; otherwise sort the located edits by ascending offset and reject on
any adjacent overlap. -/
def validateBatchEdits (content : Str) (edits : List EditEntry) (notePath : Str) :
    Except Str (List LocEdit) :=
  let p := collectVal content edits 0
  if p.2 ≠ [] then .error (batchValFailMsg notePath p.2)
  else
    let located := List.insertionSort (fun a b : LocEdit => a.off ≤ b.off) p.1
    match overlapFind located 1 with
    | some i => .error (overlapMsg notePath i)
    | none => .ok located

/-- Success message of the batch handler. -/
def appliedMsg (n : Nat) (p : Str) : Str :=
  ("Applied ").data ++ natStr n ++ (" edit(s) to ").data ++ p

/-- The splice of one located edit into the working content
(`result[:offset] + NewText + result[offset+len(OldText):]`). -/
def splice (acc : Str) (le : LocEdit) : Str :=
  acc.take le.off ++ le.new ++ acc.drop (le.off + le.old.length)

/-- Model of `Vault.BatchEditNoteHandler` on already-decoded edits (the
`json.Unmarshal` failure branch concerns no claim; `context_lines = 0`). -/
def BatchEditNoteHandler (root : GoPath) (fs : FS) (path : Str)
    (edits : List EditEntry) : ToolResult × FS :=
  let notePath := withMd path
  let fullPath := joinPath root notePath
  if ¬ isPathSafe root fullPath then (.fail pathVaultMsg, fs)
  else if edits = [] then (.fail (("edits array is empty").data), fs)
  else
    match fsRead fs fullPath with
    | none => (.fail (notFoundMsg notePath), fs)
    | some contentStr =>
      match validateBatchEdits contentStr edits notePath with
      | .error m => (.fail m, fs)
      | .ok located =>
        let sorted := List.insertionSort (fun a b : LocEdit => b.off ≤ a.off) located
        let result := sorted.foldl splice contentStr
        (.text (appliedMsg edits.length notePath), fsWrite fs fullPath result)

/-! ### Section replace engine (`ReplaceSectionHandler`) -/

/-- Modelled from the spec: `headingRegex` is declared in a source file
that is not under src/ (only its use in `ReplaceSectionHandler` is).  Per
spec §4.5 a heading line records "level (number of leading `#`) and
text", matching the sibling `h1Regex` pattern `^#\s+(.+)$`; the modelled
regex is `^(#+)\s+(.+)$` with `level = len(matches[1])` and
`text = strings.TrimSpace(matches[2])`.  On one newline-free line that
regex matches exactly when at least one `#` is followed by a `\s`
character and at least one further character, and after `TrimSpace` the
captured text equals the trimmed remainder after the `#` run. -/
def lineHeading (l : Str) : Option (Nat × Str) :=
  let hashes := l.takeWhile (fun c => c = '#')
  let tail := l.drop hashes.length
  if 1 ≤ hashes.length ∧ 2 ≤ tail.length ∧ isReSpace (tail.headD 'x') = true then
    some (hashes.length, trimSpace tail)
  else none

/-- The section-boundary scan of `ReplaceSectionHandler`: walk the lines
carrying the current index `i` and the matched heading (index, level) if
already found; return `(sectionStart, sectionLevel, sectionEnd?)`. -/
def scanSec (heading : Str) : List Str → Nat → Option (Nat × Nat) →
    Option (Nat × Nat × Option Nat)
  | [], _, st => st.map (fun p => (p.1, p.2, none))
  | l :: rest, i, st =>
    match lineHeading l with
    | some lvtx =>
      match st with
      | none =>
        if eqFold lvtx.2 heading then scanSec heading rest (i + 1) (some (i, lvtx.1))
        else scanSec heading rest (i + 1) none
      | some p =>
        if lvtx.1 ≤ p.2 then some (p.1, p.2, some i)
        else scanSec heading rest (i + 1) st
    | none => scanSec heading rest (i + 1) st

/-- Heading-not-found error message. -/
def headingNotFoundMsg (h p : Str) : Str :=
  ("Heading '").data ++ h ++ ("' not found in ").data ++ p

/-- Success message of the section handler. -/
def sectionMsg (h p : Str) (replaced inserted : Nat) : Str :=
  ("Replaced section '").data ++ h ++ ("' in ").data ++ p ++ (" (").data ++
    natStr replaced ++ (" lines replaced with ").data ++ natStr inserted ++ (" lines)").data

/-- Model of `Vault.ReplaceSectionHandler` (`context_lines = 0`). -/
def ReplaceSectionHandler (root : GoPath) (fs : FS) (path heading sectionContent : Str) :
    ToolResult × FS :=
  let notePath := withMd path
  let fullPath := joinPath root notePath
  if ¬ isPathSafe root fullPath then (.fail pathVaultMsg, fs)
  else
    match fsRead fs fullPath with
    | none => (.fail (notFoundMsg notePath), fs)
    | some content =>
      let lines := splitNL content
      match scanSec heading lines 0 none with
      | none => (.fail (headingNotFoundMsg heading notePath), fs)
      | some r =>
        let sectionStart := r.1
        let sectionEnd := r.2.2.getD lines.length
        let contentStart := sectionStart + 1
        let linesReplaced := sectionEnd - contentStart
        let normalizedContent := trimNLRight sectionContent
        let newContentLines := splitNL ('\n' :: normalizedContent ++ ['\n'])
        let result := lines.take contentStart ++ newContentLines ++ lines.drop sectionEnd
        let finalContent := joinNL result
        (.text (sectionMsg heading notePath linesReplaced newContentLines.length),
          fsWrite fs fullPath finalContent)

/-! ### Vault-wide link rewriter (`updateWikilinks`, `updateLinksInVault`) -/

/-- Model of `updateWikilinks`: two sequential literal `ReplaceAll`s,
`[[old]] -> [[new]]` then `[[old| -> [[new|`. -/
def updateWikilinks (content oldName newName : Str) : Str :=
  let c1 := replaceAllGo content ('[' :: '[' :: oldName ++ [']', ']'])
    ('[' :: '[' :: newName ++ [']', ']'])
  replaceAllGo c1 ('[' :: '[' :: oldName ++ ['|']) ('[' :: '[' :: newName ++ ['|'])

/-- Does this path name a markdown file (the `strings.HasSuffix(path, ".md")`
filter of the `filepath.Walk` callback)? -/
def pathIsMd : GoPath → Bool
  | [] => false
  | [s] => endsL mdExt s
  | _ :: t => pathIsMd t

/-- Model of `updateLinksInVault`: visit every `.md` file, rewrite its
links, and write back only when the content changed.  Returns the new
file system together with the list of paths actually written. -/
def updateLinksInVault (fs : FS) (oldName newName : Str) : FS × List GoPath :=
  match fs with
  | [] => ([], [])
  | (p, c) :: t =>
    let r := updateLinksInVault t oldName newName
    if pathIsMd p then
      let c' := updateWikilinks c oldName newName
      if c' ≠ c then ((p, c') :: r.1, p :: r.2) else ((p, c) :: r.1, r.2)
    else ((p, c) :: r.1, r.2)

/-! ### Frontmatter (`internal/vault/frontmatter.go` and the mutator) -/

/-- Character class `[a-zA-Z0-9_-]` of the key regex. -/
def keyChar (c : Char) : Bool := c.isAlpha || c.isDigit || c = '_' || c = '-'

/-- One line of simple YAML: the regex
`^([a-zA-Z_][a-zA-Z0-9_-]*)\s*:\s*(.*)$` applied to the `TrimSpace`d
line; on a match, the lower-cased key together with the trimmed,
quote-stripped value (`strings.Trim(strings.TrimSpace(match[2]), "\x22'")`). -/
def kvLine (line : Str) : Option (Str × Str) :=
  match trimSpace line with
  | [] => none
  | c :: rest =>
    if c.isAlpha || c = '_' then
      match (rest.dropWhile keyChar).dropWhile isReSpace with
      | a :: r =>
        if a = ':' then
          some (lowerL (c :: rest.takeWhile keyChar),
            trimQuotes (trimSpace (r.dropWhile isReSpace)))
        else none
      | [] => none
    else none

/-- Go map assignment `m[k] = v` on an association-list model. -/
def fmSet : List (Str × Str) → Str → Str → List (Str × Str)
  | [], k, v => [(k, v)]
  | (a, b) :: t, k, v => if a = k then (k, v) :: t else (a, b) :: fmSet t k v

/-- Go map lookup. -/
def fmGet : List (Str × Str) → Str → Option Str
  | [], _ => none
  | (a, b) :: t, k => if a = k then some b else fmGet t k

/-- The marker line `---`. -/
def dashes : Str := ['-', '-', '-']

/-- Model of `ParseFrontmatter`: requires the three leading bytes `---`,
ends the block at the first occurrence of `---` anywhere after byte
offset 3 (`strings.Index(content[3:], "---")`), and folds the `key: value`
lines of `content[3 : endIdx+3]` into the map. -/
def ParseFrontmatter (content : Str) : List (Str × Str) :=
  if begins dashes content = false then []
  else
    match indexOfGo (content.drop 3) dashes with
    | none => []
    | some endIdx =>
      let fmContent := (content.drop 3).take endIdx
      let lines := splitNL fmContent
      lines.foldl
        (fun m line =>
          match kvLine line with
          | some kv => fmSet m kv.1 kv.2
          | none => m) []

/-- Modelled from the spec: `setFrontmatterKey` is defined in a source
file that is not under src/ (only `TestSetFrontmatterKey` and callers
such as `BulkSetFrontmatterHandler` are).  Spec §4.3 "Set key": if a
frontmatter block exists and contains the key (compared
case-insensitively), replace that line's value in place, preserving every
other line verbatim; if the block exists but lacks the key, insert a new
`key: value` line immediately before the closing marker; if no block
exists, synthesize one (marker, `key: value`, marker, blank line)
prefixed to the original content.  The key is written lower-cased (test
vector "key is lowercased"); "contains the key" is modelled as the line
starting, case-insensitively, with `key:`.  The model reproduces all four
`TestSetFrontmatterKey` vectors (checked below). -/
def setFrontmatterKey (content key value : Str) : Str :=
  let k := lowerL key
  let kv := k ++ ':' :: ' ' :: value
  match splitNL content with
  | [] => dashes ++ '\n' :: kv ++ '\n' :: dashes ++ '\n' :: '\n' :: content
  | l0 :: rest =>
    match (if l0 = dashes then firstIdx (fun l => l = dashes) rest else none) with
    | some j =>
      match firstIdx (fun l => begins (k ++ [':']) (lowerL l)) (rest.take j) with
      | some i => joinNL (l0 :: rest.set i kv)
      | none => joinNL (l0 :: (rest.take j ++ kv :: rest.drop j))
    | none => dashes ++ '\n' :: kv ++ '\n' :: dashes ++ '\n' :: '\n' :: content

/-! ### Basic lemmas about the string model -/

theorem begins_iff {p s : Str} : begins p s = true ↔ ∃ t, p ++ t = s := by
  induction p generalizing s with
  | nil => simp [begins]
  | cons a p ih =>
    cases s with
    | nil => simp [begins]
    | cons b t =>
      simp only [begins, Bool.and_eq_true, decide_eq_true_eq, ih, List.cons_append,
        List.cons.injEq]
      constructor
      · rintro ⟨rfl, u, rfl⟩; exact ⟨u, rfl, rfl⟩
      · rintro ⟨u, rfl, rfl⟩; exact ⟨rfl, u, rfl⟩

theorem begins_append (p t : Str) : begins p (p ++ t) = true :=
  begins_iff.mpr ⟨t, rfl⟩

theorem begins_refl (p : Str) : begins p p = true := by
  have := begins_append p []
  simpa using this

theorem begins_length {p s : Str} (h : begins p s = true) : p.length ≤ s.length := by
  obtain ⟨t, rfl⟩ := begins_iff.mp h
  simp

theorem begins_nil (p : Str) : begins p [] = true ↔ p = [] := by
  cases p <;> simp [begins]

/-- A prefix is determined by the length: `p` is the first `p.length`
characters of `s`. -/
theorem begins_eq_take {p s : Str} (h : begins p s = true) : s.take p.length = p := by
  obtain ⟨t, rfl⟩ := begins_iff.mp h
  simp

theorem matchAt_of_split {A sub B : Str} : matchAt (A ++ sub ++ B) A.length sub := by
  unfold matchAt
  rw [List.append_assoc, List.drop_left]
  exact begins_append _ _

theorem matchAt_iff {s : Str} {i : Nat} {sub : Str} (hne : sub ≠ []) :
    matchAt s i sub ↔ ∃ A B, A ++ sub ++ B = s ∧ A.length = i ∧ i ≤ s.length := by
  constructor
  · intro h
    have hb := begins_iff.mp h
    obtain ⟨t, ht⟩ := hb
    by_cases hi : i ≤ s.length
    · refine ⟨s.take i, t, ?_, by simp [hi], hi⟩
      have h2 : s.take i ++ s.drop i = s := List.take_append_drop i s
      rw [← ht] at h2
      simpa [List.append_assoc] using h2
    · exfalso
      have hdrop : s.drop i = [] := by
        apply List.drop_eq_nil_of_le
        omega
      rw [hdrop] at ht
      have h3 : (sub ++ t).length = 0 := by rw [ht]; rfl
      simp at h3
      exact hne h3.1
  · rintro ⟨A, B, rfl, rfl, _⟩
    exact matchAt_of_split

theorem matchAt_bound {s : Str} {i : Nat} {sub : Str} (hne : sub ≠ [])
    (h : matchAt s i sub) : i + sub.length ≤ s.length := by
  obtain ⟨A, B, rfl, rfl, _⟩ := (matchAt_iff hne).mp h
  simp only [List.append_assoc, List.length_append]
  omega

theorem drop_append_len (P s : Str) (i : Nat) :
    (P ++ s).drop (P.length + i) = s.drop i := by
  induction P with
  | nil => simp
  | cons c P ih => simp [Nat.succ_add, ih]

theorem drop_append_self (Q B : Str) : (Q ++ B).drop Q.length = B := by
  have h := drop_append_len Q B 0
  simp only [Nat.add_zero, List.drop_zero] at h
  exact h

theorem matchAt_cons {c : Char} {rest : Str} {j : Nat} {sub : Str} :
    matchAt (c :: rest) (j + 1) sub ↔ matchAt rest j sub := by
  unfold matchAt
  rfl

theorem matchAt_shift {P s : Str} {i : Nat} {sub : Str} :
    matchAt (P ++ s) (P.length + i) sub ↔ matchAt s i sub := by
  unfold matchAt
  rw [drop_append_len]

theorem matchAt_drop {s : Str} {m j : Nat} {sub : Str}
    (h : matchAt (s.drop m) j sub) : matchAt s (m + j) sub := by
  unfold matchAt at h ⊢
  rw [List.drop_drop] at h
  simpa [Nat.add_comm] using h

/-! ### `strings.Index` characterization -/

theorem idxAux_some {d : Char} {ds s : Str} {i : Nat}
    (h : idxAux d ds s = some i) :
    matchAt s i (d :: ds) ∧ ∀ j, j < i → ¬ matchAt s j (d :: ds) := by
  induction s generalizing i with
  | nil => simp [idxAux] at h
  | cons c rest ih =>
    by_cases hb : begins (d :: ds) (c :: rest) = true
    · rw [idxAux, if_pos hb] at h
      cases h
      exact ⟨hb, by omega⟩
    · rw [idxAux, if_neg hb] at h
      cases hidx : idxAux d ds rest with
      | none => rw [hidx] at h; cases h
      | some j =>
        rw [hidx] at h
        have hij : i = j + 1 := by
          simpa using h.symm
        subst hij
        obtain ⟨h1, h2⟩ := ih hidx
        refine ⟨matchAt_cons.mpr h1, ?_⟩
        intro k hk
        cases k with
        | zero => exact fun hm => hb hm
        | succ k' => exact fun hm => h2 k' (by omega) (matchAt_cons.mp hm)

theorem idxAux_none {d : Char} {ds s : Str} :
    idxAux d ds s = none ↔ ∀ i, ¬ matchAt s i (d :: ds) := by
  constructor
  · intro h
    induction s with
    | nil =>
      intro i hm
      simp [matchAt, begins] at hm
    | cons c rest ih =>
      by_cases hb : begins (d :: ds) (c :: rest) = true
      · rw [idxAux, if_pos hb] at h; cases h
      · rw [idxAux, if_neg hb] at h
        cases hidx : idxAux d ds rest with
        | some k => rw [hidx] at h; cases h
        | none =>
          have hall := ih hidx
          intro i
          cases i with
          | zero => exact fun hm => hb hm
          | succ j => exact fun hm => hall j (matchAt_cons.mp hm)
  · intro hall
    cases hidx : idxAux d ds s with
    | none => rfl
    | some k =>
      obtain ⟨h1, _⟩ := idxAux_some hidx
      exact absurd h1 (hall k)

/-- With a nonempty pattern and a unique occurrence position,
`strings.Index` returns exactly that position. -/
theorem indexOfGo_of_unique {s sub : Str} {i : Nat} (hne : sub ≠ [])
    (hex : matchAt s i sub) (huniq : ∀ j, matchAt s j sub → j = i) :
    indexOfGo s sub = some i := by
  cases sub with
  | nil => exact absurd rfl hne
  | cons d ds =>
    have h2 : indexOfGo s (d :: ds) = idxAux d ds s := rfl
    rw [h2]
    cases hidx : idxAux d ds s with
    | none => exact absurd hex (idxAux_none.mp hidx i)
    | some k =>
      obtain ⟨h1, _⟩ := idxAux_some hidx
      rw [huniq k h1]

/-! ### `countPos` and `strings.Count` -/

theorem mem_countPos_filter {s sub : Str} {i : Nat} (hne : sub ≠ []) :
    i ∈ (Finset.range (s.length + 1)).filter (fun j => begins sub (s.drop j) = true) ↔
      matchAt s i sub := by
  simp only [Finset.mem_filter, Finset.mem_range]
  constructor
  · exact fun h => h.2
  · intro h
    refine ⟨?_, h⟩
    have hb := matchAt_bound hne h
    have hlen : 0 < sub.length := List.length_pos.mpr hne
    omega

theorem countPos_eq_one_of_unique {s sub : Str} {i : Nat} (hne : sub ≠ [])
    (hex : matchAt s i sub) (huniq : ∀ j, matchAt s j sub → j = i) :
    countPos s sub = 1 := by
  unfold countPos
  have hset : ((Finset.range (s.length + 1)).filter
      (fun j => begins sub (s.drop j) = true)) = {i} := by
    ext j
    rw [mem_countPos_filter hne, Finset.mem_singleton]
    constructor
    · exact fun h => huniq j h
    · rintro rfl; exact hex
  rw [hset]
  simp

theorem countPos_one {s sub : Str} (hne : sub ≠ []) (h : countPos s sub = 1) :
    ∃ i, matchAt s i sub ∧ ∀ j, matchAt s j sub → j = i := by
  unfold countPos at h
  obtain ⟨a, ha⟩ := Finset.card_eq_one.mp h
  refine ⟨a, ?_, ?_⟩
  · have : a ∈ ({a} : Finset Nat) := Finset.mem_singleton_self a
    rw [← ha] at this
    exact (mem_countPos_filter hne).mp this
  · intro j hj
    have : j ∈ ({a} : Finset Nat) := by
      rw [← ha]
      exact (mem_countPos_filter hne).mpr hj
    exact Finset.mem_singleton.mp this

theorem countPos_tail_le {c : Char} {rest sub : Str} (hne : sub ≠ []) :
    countPos rest sub ≤ countPos (c :: rest) sub := by
  unfold countPos
  apply Finset.card_le_card_of_injOn (fun i => i + 1)
  · intro i hi
    rw [mem_countPos_filter hne] at hi
    rw [mem_countPos_filter hne]
    exact matchAt_cons.mpr hi
  · intro a _ b _ h
    simp only at h
    omega

theorem countPos_head_drop {s sub : Str} {m : Nat} (hne : sub ≠ [])
    (h0 : matchAt s 0 sub) (hm : 1 ≤ m) :
    countPos (s.drop m) sub + 1 ≤ countPos s sub := by
  unfold countPos
  set T := (Finset.range ((s.drop m).length + 1)).filter
    (fun j => begins sub ((s.drop m).drop j) = true) with hT
  set S := (Finset.range (s.length + 1)).filter
    (fun j => begins sub (s.drop j) = true) with hS
  have hsub : insert 0 (T.image (fun i => i + m)) ⊆ S := by
    intro x hx
    rw [Finset.mem_insert] at hx
    rcases hx with rfl | hx
    · rw [hS, mem_countPos_filter hne]; exact h0
    · rw [Finset.mem_image] at hx
      obtain ⟨i, hi, rfl⟩ := hx
      rw [hT, mem_countPos_filter hne] at hi
      rw [hS, mem_countPos_filter hne]
      have := matchAt_drop hi
      rwa [Nat.add_comm] at this
  have hnotmem : (0 : Nat) ∉ T.image (fun i => i + m) := by
    rw [Finset.mem_image]
    rintro ⟨i, _, hi⟩
    omega
  calc T.card + 1 = (T.image (fun i => i + m)).card + 1 := by
        rw [Finset.card_image_of_injective _ (fun a b h => by simpa using h)]
    _ = (insert 0 (T.image (fun i => i + m))).card := by
        rw [Finset.card_insert_of_not_mem hnotmem]
    _ ≤ S.card := Finset.card_le_card hsub

theorem countAux_skip (d : Char) (ds : Str) :
    ∀ (s : Str) (k : Nat), countAux d ds s k = countAux d ds (s.drop k) 0 := by
  intro s
  induction s with
  | nil => intro k; simp [countAux]
  | cons c rest ih =>
    intro k
    cases k with
    | zero => simp
    | succ k =>
      rw [show countAux d ds (c :: rest) (k + 1) = countAux d ds rest k from rfl]
      rw [ih k]
      rfl

/-- The match step of the counting scan: count one occurrence and resume
after it. -/
theorem countAux_match {d c : Char} {ds rest : Str}
    (hb : begins (d :: ds) (c :: rest) = true) :
    countAux d ds (c :: rest) 0 = 1 + countAux d ds (rest.drop ds.length) 0 := by
  rw [show countAux d ds (c :: rest) 0 =
    (if begins (d :: ds) (c :: rest) then 1 + countAux d ds rest ds.length
     else countAux d ds rest 0) from rfl]
  rw [if_pos hb, countAux_skip]

theorem countAux_miss {d c : Char} {ds rest : Str}
    (hb : ¬ begins (d :: ds) (c :: rest) = true) :
    countAux d ds (c :: rest) 0 = countAux d ds rest 0 := by
  rw [show countAux d ds (c :: rest) 0 =
    (if begins (d :: ds) (c :: rest) then 1 + countAux d ds rest ds.length
     else countAux d ds rest 0) from rfl]
  rw [if_neg hb]

theorem countAux_le_countPos (d : Char) (ds : Str) :
    ∀ n (s : Str), s.length ≤ n → countAux d ds s 0 ≤ countPos s (d :: ds) := by
  intro n
  induction n with
  | zero =>
    intro s hs
    have : s = [] := List.length_eq_zero.mp (by omega)
    subst this
    simp [countAux]
  | succ n ih =>
    intro s hs
    cases s with
    | nil => simp [countAux]
    | cons c rest =>
      by_cases hb : begins (d :: ds) (c :: rest) = true
      · rw [countAux_match hb]
        have hstep : rest.drop ds.length = (c :: rest).drop (ds.length + 1) := rfl
        rw [hstep]
        have hdroplen : ((c :: rest).drop (ds.length + 1)).length ≤ n := by
          simp only [List.length_drop, List.length_cons] at *
          omega
        have h1 := ih _ hdroplen
        have h2 := @countPos_head_drop (c :: rest) (d :: ds) (ds.length + 1)
          (by simp) hb (by omega)
        omega
      · rw [countAux_miss hb]
        have h1 : rest.length ≤ n := by
          simp only [List.length_cons] at hs
          omega
        calc countAux d ds rest 0 ≤ countPos rest (d :: ds) := ih _ h1
          _ ≤ countPos (c :: rest) (d :: ds) := countPos_tail_le (by simp)

theorem countAux_pos {d : Char} {ds s : Str} {i : Nat}
    (h : matchAt s i (d :: ds)) : 1 ≤ countAux d ds s 0 := by
  induction s generalizing i with
  | nil => simp [matchAt, begins] at h
  | cons c rest ih =>
    by_cases hb : begins (d :: ds) (c :: rest) = true
    · rw [countAux_match hb]; omega
    · rw [countAux_miss hb]
      cases i with
      | zero => exact absurd h hb
      | succ j => exact ih (matchAt_cons.mp h)

/-- A pattern with a single (mathematical) occurrence is counted exactly
once by `strings.Count`. -/
theorem countGo_eq_one_of_unique {s sub : Str} {i : Nat} (hne : sub ≠ [])
    (hex : matchAt s i sub) (huniq : ∀ j, matchAt s j sub → j = i) :
    countGo s sub = 1 := by
  cases sub with
  | nil => exact absurd rfl hne
  | cons d ds =>
    have h1 : countGo s (d :: ds) = countAux d ds s 0 := rfl
    rw [h1]
    have h2 := countAux_le_countPos d ds s.length s (le_refl _)
    rw [countPos_eq_one_of_unique hne hex huniq] at h2
    have h3 := countAux_pos hex
    omega

/-- With a unique occurrence at the split point, `strings.Replace(s, old, new, 1)`
replaces exactly that occurrence. -/
theorem replace1Go_of_unique {s old new A B : Str} (hne : old ≠ [])
    (hs : A ++ old ++ B = s) (huniq : ∀ j, matchAt s j old → j = A.length) :
    replace1Go s old new = A ++ new ++ B := by
  have hex : matchAt s A.length old := by
    rw [← hs]; exact matchAt_of_split
  have hidx : indexOfGo s old = some A.length := indexOfGo_of_unique hne hex huniq
  cases old with
  | nil => exact absurd rfl hne
  | cons d ds =>
    have h1 : replace1Go s (d :: ds) new =
        s.take A.length ++ new ++ s.drop (A.length + (d :: ds).length) := by
      unfold replace1Go
      rw [hidx]
    rw [h1]
    subst hs
    congr 1
    · congr 1
      rw [List.append_assoc]
      exact List.take_left _ _
    · rw [List.append_assoc, drop_append_len, drop_append_self]

/-! ### Claim C3: single-edit postcondition -/

/-- C3.  For every document `D` and edit `(old, new)` where `old` is
non-empty and occurs exactly once in `D` (here: `D = A ++ old ++ B` and
the number of occurrence positions is one), `EditNoteHandler` reports
success and writes back `D` with that one occurrence of `old` replaced by
`new`, and the written content's length equals
`len(D) + len(new) - len(old)`. -/
theorem single_edit_postcondition
    (root : GoPath) (fs : FS) (path D old new A B : Str)
    (hne : old ≠ [])
    (hsplit : A ++ old ++ B = D)
    (hcount : countPos D old = 1)
    (hsafe : isPathSafe root (joinPath root (withMd path)) = true)
    (hread : fsRead fs (joinPath root (withMd path)) = some D) :
    EditNoteHandler root fs path old new false =
      (ToolResult.text (replacedMsg 1 (withMd path)),
        fsWrite fs (joinPath root (withMd path)) (A ++ new ++ B)) ∧
    (A ++ new ++ B).length = D.length + new.length - old.length := by
  obtain ⟨i, hex, huniq⟩ := countPos_one hne hcount
  have hiA : i = A.length := by
    have : matchAt D A.length old := by rw [← hsplit]; exact matchAt_of_split
    exact (huniq _ this).symm
  subst hiA
  have hrepl : replace1Go D old new = A ++ new ++ B :=
    replace1Go_of_unique hne hsplit huniq
  have hcg : countGo D old = 1 := countGo_eq_one_of_unique hne hex huniq
  constructor
  · simp [EditNoteHandler, hsafe, hread, hcg, hrepl]
  · have : old.length ≤ D.length := by
      rw [← hsplit]
      simp only [List.append_assoc, List.length_append]
      omega
    rw [← hsplit]
    simp only [List.append_assoc, List.length_append]
    omega

/-- Witness for C3 at `D = "x y z"`, `old = "y"`, `new = "qq"`. -/
theorem single_edit_postcondition_witness :
    EditNoteHandler [['v']] [([['v'], ('a' :: mdExt)], ('x' :: ' ' :: 'y' :: ' ' :: ['z']))]
        ('a' :: mdExt) ['y'] ['q', 'q'] false =
      (ToolResult.text (replacedMsg 1 ('a' :: mdExt)),
        fsWrite [([['v'], ('a' :: mdExt)], ('x' :: ' ' :: 'y' :: ' ' :: ['z']))]
          (joinPath [['v']] (withMd ('a' :: mdExt)))
          (('x' :: [' ']) ++ ['q', 'q'] ++ (' ' :: ['z']))) ∧
    (('x' :: [' ']) ++ ['q', 'q'] ++ (' ' :: ['z'])).length =
      ('x' :: ' ' :: 'y' :: ' ' :: ['z'] : Str).length + (['q', 'q'] : Str).length - (['y'] : Str).length := by
  have h := single_edit_postcondition [['v']]
    [([['v'], ('a' :: mdExt)], ('x' :: ' ' :: 'y' :: ' ' :: ['z']))]
    ('a' :: mdExt) ('x' :: ' ' :: 'y' :: ' ' :: ['z']) ['y'] ['q', 'q']
    ('x' :: [' ']) (' ' :: ['z'])
    (by decide) (by decide) (by decide) (by decide) (by decide)
  exact h

/-! ### Claim C9: empty `old_text` in the single-edit engine -/

/-- C9 (implicit).  The single-edit engine never rejects empty `old_text`
as invalid input: the occurrence count of the empty string is
`len(D) + 1`; with `replace_all` disabled and `D` non-empty the call
always fails with the ambiguous-match error reporting that count (never
the not-found error); with `replace_all` enabled the call succeeds and
writes `D` with `new_text` interleaved at every character boundary. -/
theorem empty_old_text_behavior
    (root : GoPath) (fs : FS) (path D new : Str)
    (hsafe : isPathSafe root (joinPath root (withMd path)) = true)
    (hread : fsRead fs (joinPath root (withMd path)) = some D) :
    countGo D [] = D.length + 1 ∧
    (D ≠ [] →
      EditNoteHandler root fs path [] new false =
        (ToolResult.fail (ambiguousMsg (D.length + 1) (withMd path)), fs)) ∧
    EditNoteHandler root fs path [] new true =
      (ToolResult.text (replacedMsg (D.length + 1) (withMd path)),
        fsWrite fs (joinPath root (withMd path))
          (new ++ D.flatMap (fun c => c :: new))) := by
  refine ⟨rfl, ?_, ?_⟩
  · intro hD
    have hlen : 1 ≤ D.length := List.length_pos.mpr hD
    have h0 : ¬ (D.length + 1 = 0) := by omega
    have h2 : D.length + 1 > 1 := by omega
    simp [EditNoteHandler, hsafe, hread, countGo, h0, h2]
  · have h0 : ¬ (D.length + 1 = 0) := by omega
    simp [EditNoteHandler, hsafe, hread, countGo, h0, replaceAllGo]

/-- Witness for C9 at `D = "ab"`, `new = "X"`. -/
theorem empty_old_text_behavior_witness :
    countGo ['a', 'b'] [] = (['a', 'b'] : Str).length + 1 ∧
    ((['a', 'b'] : Str) ≠ [] →
      EditNoteHandler [['v']] [([['v'], ('n' :: mdExt)], ['a', 'b'])]
          ('n' :: mdExt) [] ['X'] false =
        (ToolResult.fail (ambiguousMsg ((['a', 'b'] : Str).length + 1) (withMd ('n' :: mdExt))),
          [([['v'], ('n' :: mdExt)], ['a', 'b'])])) ∧
    EditNoteHandler [['v']] [([['v'], ('n' :: mdExt)], ['a', 'b'])]
        ('n' :: mdExt) [] ['X'] true =
      (ToolResult.text (replacedMsg ((['a', 'b'] : Str).length + 1) (withMd ('n' :: mdExt))),
        fsWrite [([['v'], ('n' :: mdExt)], ['a', 'b'])]
          (joinPath [['v']] (withMd ('n' :: mdExt)))
          (['X'] ++ (['a', 'b'] : Str).flatMap (fun c => c :: ['X']))) :=
  empty_old_text_behavior [['v']] [([['v'], ('n' :: mdExt)], ['a', 'b'])]
    ('n' :: mdExt) ['a', 'b'] ['X'] (by decide) (by decide)

/-! ### Claim C10: `ParseFrontmatter` -/

theorem lowerC_idem (c : Char) : lowerC (lowerC c) = lowerC c := by
  by_cases h : 65 ≤ c.toNat ∧ c.toNat ≤ 90
  · have ht : (lowerC c).toNat = c.toNat + 32 := by
      unfold lowerC
      rw [if_pos h]
      have hv : (c.toNat + 32).isValidChar := Or.inl (by omega)
      show (Char.ofNat (c.toNat + 32)).toNat = c.toNat + 32
      unfold Char.ofNat
      rw [dif_pos hv]
      rfl
    have h2 : ¬ (65 ≤ (lowerC c).toNat ∧ (lowerC c).toNat ≤ 90) := by
      rw [ht]; omega
    conv_lhs => rw [lowerC]
    rw [if_neg h2]
  · unfold lowerC
    rw [if_neg h, if_neg h]

theorem lowerL_idem (s : Str) : lowerL (lowerL s) = lowerL s := by
  unfold lowerL
  rw [List.map_map]
  apply List.map_congr_left
  intro c _
  exact lowerC_idem c

theorem kvLine_key {line k v : Str} (h : kvLine line = some (k, v)) :
    lowerL k = k := by
  unfold kvLine at h
  cases htr : trimSpace line with
  | nil => rw [htr] at h; cases h
  | cons c rest =>
    rw [htr] at h
    dsimp only at h
    by_cases hc : (c.isAlpha || decide (c = '_')) = true
    · rw [if_pos hc] at h
      cases hafter : (rest.dropWhile keyChar).dropWhile isReSpace with
      | nil => rw [hafter] at h; cases h
      | cons a r =>
        rw [hafter] at h
        dsimp only at h
        by_cases ha : a = ':'
        · rw [if_pos ha] at h
          cases h
          exact lowerL_idem _
        · rw [if_neg ha] at h; cases h
    · rw [if_neg hc] at h; cases h

theorem fmSet_mem {m : List (Str × Str)} {k v : Str} {p : Str × Str}
    (h : p ∈ fmSet m k v) : p ∈ m ∨ p = (k, v) := by
  induction m with
  | nil =>
    simp [fmSet] at h
    right; exact h
  | cons q t ih =>
    obtain ⟨a, b⟩ := q
    rw [show fmSet ((a, b) :: t) k v =
        (if a = k then (k, v) :: t else (a, b) :: fmSet t k v) from rfl] at h
    by_cases ha : a = k
    · rw [if_pos ha] at h
      rcases List.mem_cons.mp h with rfl | h
      · right; rfl
      · left; exact List.mem_cons_of_mem _ h
    · rw [if_neg ha] at h
      rcases List.mem_cons.mp h with rfl | h
      · left; exact List.mem_cons_self _ _
      · rcases ih h with h | h
        · left; exact List.mem_cons_of_mem _ h
        · right; exact h

/-- Every key produced by the `key: value` fold is lower-case fixed. -/
theorem foldl_kv_key_lower (lines : List Str) :
    ∀ (m : List (Str × Str)), (∀ p ∈ m, lowerL p.1 = p.1) →
    ∀ p ∈ lines.foldl
      (fun m line =>
        match kvLine line with
        | some kv => fmSet m kv.1 kv.2
        | none => m) m, lowerL p.1 = p.1 := by
  induction lines with
  | nil => intro m hm p hp; exact hm p hp
  | cons l ls ih =>
    intro m hm
    simp only [List.foldl_cons]
    apply ih
    intro p hp
    cases hkv : kvLine l with
    | none => rw [hkv] at hp; exact hm p hp
    | some kv =>
      rw [hkv] at hp
      rcases fmSet_mem hp with h | h
      · exact hm p h
      · cases kv with
        | mk k v =>
          rw [h]
          exact kvLine_key hkv

/-- `strings.Index` returns the leftmost occurrence. -/
theorem indexOfGo_leftmost {s sub : Str} {i : Nat} (hne : sub ≠ [])
    (hex : matchAt s i sub) (hmin : ∀ j, j < i → ¬ matchAt s j sub) :
    indexOfGo s sub = some i := by
  cases sub with
  | nil => exact absurd rfl hne
  | cons d ds =>
    have h2 : indexOfGo s (d :: ds) = idxAux d ds s := rfl
    rw [h2]
    cases hidx : idxAux d ds s with
    | none => exact absurd hex (idxAux_none.mp hidx i)
    | some k =>
      obtain ⟨h1, hk⟩ := idxAux_some hidx
      have : k = i := by
        rcases Nat.lt_trichotomy k i with h | h | h
        · exact absurd h1 (hmin k h)
        · exact h
        · exact absurd hex (hk i h)
      rw [this]

/-- C10 (implicit).  `ParseFrontmatter` treats a content string as having
frontmatter exactly when it starts with the three bytes `---` (whatever
follows on that line); the block ends at the first occurrence of the
substring `---` anywhere after byte offset 3, even mid-line; only the
`key: value` lines in between are folded into the map, whose keys are all
lower-cased; and the (total) function returns a possibly empty map on
every input: in particular the map is empty when the `---` prefix or the
closing occurrence is missing. -/
theorem parse_frontmatter_characterization (content : Str) :
    (¬ matchAt content 0 dashes → ParseFrontmatter content = []) ∧
    ((∀ i, ¬ matchAt (content.drop 3) i dashes) → ParseFrontmatter content = []) ∧
    (∀ i, matchAt content 0 dashes → matchAt (content.drop 3) i dashes →
      (∀ j, j < i → ¬ matchAt (content.drop 3) j dashes) →
      ParseFrontmatter content =
        (splitNL ((content.drop 3).take i)).foldl
          (fun m line =>
            match kvLine line with
            | some kv => fmSet m kv.1 kv.2
            | none => m) []) ∧
    (∀ p ∈ ParseFrontmatter content, lowerL p.1 = p.1) := by
  refine ⟨?_, ?_, ?_, ?_⟩
  · intro h
    have hb : begins dashes content = false := by
      cases hb : begins dashes content with
      | false => rfl
      | true =>
        exact absurd (show matchAt content 0 dashes from hb) h
    simp [ParseFrontmatter, hb]
  · intro hall
    by_cases hb : begins dashes content = true
    · have hidx : indexOfGo (content.drop 3) dashes = none := by
        have h2 : indexOfGo (content.drop 3) dashes =
            idxAux '-' ['-', '-'] (content.drop 3) := rfl
        rw [h2]
        exact idxAux_none.mpr hall
      simp [ParseFrontmatter, hb, hidx]
    · simp [ParseFrontmatter, Bool.eq_false_iff.mpr hb]
  · intro i hpre hex hmin
    have hb : begins dashes content = true := hpre
    have hidx : indexOfGo (content.drop 3) dashes = some i :=
      indexOfGo_leftmost (by decide) hex hmin
    simp [ParseFrontmatter, hb, hidx]
  · by_cases hb : begins dashes content = true
    · cases hidx : indexOfGo (content.drop 3) dashes with
      | none => simp [ParseFrontmatter, hb, hidx]
      | some i =>
        simp only [ParseFrontmatter, hb, hidx]
        intro p hp
        have := foldl_kv_key_lower (splitNL ((content.drop 3).take i)) []
          (by intro q hq; cases hq) p
        apply this
        simpa using hp
    · simp [ParseFrontmatter, Bool.eq_false_iff.mpr hb]

/-- Witness for C10 on `"---\nTitle: Hi\n---\nrest"`, whose closing
marker sits at offset 11 of the post-prefix text. -/
theorem parse_frontmatter_characterization_witness :
    matchAt (("---\nTitle: Hi\n---\nrest").data.drop 3) 11 dashes ∧
    ParseFrontmatter ("---\nTitle: Hi\n---\nrest").data =
      (splitNL ((("---\nTitle: Hi\n---\nrest").data.drop 3).take 11)).foldl
        (fun m line =>
          match kvLine line with
          | some kv => fmSet m kv.1 kv.2
          | none => m) [] :=
  ⟨by decide,
    (parse_frontmatter_characterization ("---\nTitle: Hi\n---\nrest").data).2.2.1 11
      (by decide) (by decide) (by decide)⟩

/-! ### Claim C1: batch edit atomicity -/

/-- The matched byte ranges of a batch against pristine `D`: for every
edit whose `old_text` is non-empty and counted exactly once, the
half-open range starting at its leftmost match. -/
def rangesOf (D : Str) (edits : List EditEntry) : List (Nat × Nat) :=
  edits.filterMap (fun e =>
    if e.old ≠ [] ∧ countGo D e.old = 1 then
      (indexOfGo D e.old).map (fun i => (i, i + e.old.length))
    else none)

/-- Two half-open ranges do not intersect. -/
def rangeSep (a b : Nat × Nat) : Prop := a.2 ≤ b.1 ∨ b.2 ≤ a.1

instance : DecidableRel rangeSep := fun a b => by
  unfold rangeSep; infer_instance

/-- The claim's failure condition on a batch: some edit has an empty
`old_text` or an occurrence count different from one, or two matched
byte ranges overlap. -/
def BadBatch (D : Str) (edits : List EditEntry) : Prop :=
  (∃ e ∈ edits, e.old = [] ∨ countGo D e.old ≠ 1) ∨
    ¬ List.Pairwise rangeSep (rangesOf D edits)

instance (D : Str) (edits : List EditEntry) : Decidable (BadBatch D edits) := by
  unfold BadBatch; infer_instance

theorem countAux_eq_zero {d : Char} {ds s : Str}
    (h : ∀ i, ¬ matchAt s i (d :: ds)) : countAux d ds s 0 = 0 := by
  induction s with
  | nil => simp [countAux]
  | cons c rest ih =>
    have hb : ¬ begins (d :: ds) (c :: rest) = true := h 0
    rw [countAux_miss hb]
    exact ih (fun i hm => h (i + 1) (matchAt_cons.mpr hm))

/-- A positive `strings.Count` guarantees `strings.Index` finds a match. -/
theorem indexOfGo_isSome_of_count {D sub : Str} (hne : sub ≠ [])
    (hc : countGo D sub ≠ 0) : ∃ i, indexOfGo D sub = some i := by
  cases sub with
  | nil => exact absurd rfl hne
  | cons d ds =>
    cases hidx : idxAux d ds D with
    | some i => exact ⟨i, hidx⟩
    | none =>
      exfalso
      apply hc
      have hall := idxAux_none.mp hidx
      exact countAux_eq_zero hall

/-- A good edit for `D`: non-empty `old_text` counted exactly once. -/
def goodEdit (D : Str) (e : EditEntry) : Prop :=
  e.old ≠ [] ∧ countGo D e.old = 1

instance (D : Str) (e : EditEntry) : Decidable (goodEdit D e) := by
  unfold goodEdit; infer_instance

theorem collectVal_cons (D : Str) (e : EditEntry) (rest : List EditEntry) (i : Nat) :
    collectVal D (e :: rest) i =
      (if e.old = [] then
        ((collectVal D rest (i + 1)).1, emptyOldMsg i :: (collectVal D rest (i + 1)).2)
      else if countGo D e.old = 0 then
        ((collectVal D rest (i + 1)).1, zeroOldMsg i e.old :: (collectVal D rest (i + 1)).2)
      else if countGo D e.old > 1 then
        ((collectVal D rest (i + 1)).1,
          dupOldMsg i (countGo D e.old) e.old :: (collectVal D rest (i + 1)).2)
      else
        (⟨e, (indexOfGo D e.old).getD 0⟩ :: (collectVal D rest (i + 1)).1,
          (collectVal D rest (i + 1)).2)) := by
  rw [collectVal]

theorem collectVal_errs_nil (D : Str) (edits : List EditEntry) :
    ∀ i, (collectVal D edits i).2 = [] ↔ ∀ e ∈ edits, goodEdit D e := by
  induction edits with
  | nil => intro i; simp [collectVal]
  | cons e rest ih =>
    intro i
    rw [collectVal_cons]
    by_cases h0 : e.old = []
    · simp only [if_pos h0, List.mem_cons]
      constructor
      · intro h; cases h
      · intro h
        exact absurd h0 (h e (Or.inl rfl)).1
    · rw [if_neg h0]
      by_cases hc0 : countGo D e.old = 0
      · simp only [if_pos hc0, List.mem_cons]
        constructor
        · intro h; cases h
        · intro h
          exact absurd hc0 (by have := (h e (Or.inl rfl)).2; omega)
      · rw [if_neg hc0]
        by_cases hc1 : countGo D e.old > 1
        · simp only [if_pos hc1, List.mem_cons]
          constructor
          · intro h; cases h
          · intro h
            exact absurd hc1 (by have := (h e (Or.inl rfl)).2; omega)
        · rw [if_neg hc1]
          simp only [List.mem_cons]
          constructor
          · intro h x hx
            rcases hx with rfl | hx
            · exact ⟨h0, by omega⟩
            · exact ((ih (i + 1)).mp h) x hx
          · intro h
            exact (ih (i + 1)).mpr (fun x hx => h x (Or.inr hx))

/-- The located triple built for a good edit. -/
def mkLoc (D : Str) (e : EditEntry) : LocEdit :=
  ⟨e, (indexOfGo D e.old).getD 0⟩

theorem collectVal_loc_of_good (D : Str) (edits : List EditEntry)
    (hgood : ∀ e ∈ edits, goodEdit D e) :
    ∀ i, (collectVal D edits i).1 = edits.map (mkLoc D) := by
  induction edits with
  | nil => intro i; simp [collectVal]
  | cons e rest ih =>
    intro i
    have he := hgood e (List.mem_cons_self _ _)
    rw [collectVal_cons, if_neg he.1, he.2]
    rw [if_neg (by omega : ¬ (1 : Nat) = 0), if_neg (by omega : ¬ (1 : Nat) > 1)]
    simp only [List.map_cons, mkLoc]
    rw [ih (fun x hx => hgood x (List.mem_cons_of_mem _ hx)) (i + 1)]

theorem rangesOf_of_good (D : Str) (edits : List EditEntry)
    (hgood : ∀ e ∈ edits, goodEdit D e) :
    rangesOf D edits =
      (edits.map (mkLoc D)).map (fun le => (le.off, le.off + le.old.length)) := by
  induction edits with
  | nil => simp [rangesOf]
  | cons e rest ih =>
    have he := hgood e (List.mem_cons_self _ _)
    obtain ⟨i0, hi0⟩ := indexOfGo_isSome_of_count he.1 (by rw [he.2]; omega)
    rw [rangesOf, List.filterMap_cons]
    rw [show (if e.old ≠ [] ∧ countGo D e.old = 1 then
        (indexOfGo D e.old).map (fun i => (i, i + e.old.length)) else none) =
        some (i0, i0 + e.old.length) from by
      rw [if_pos ⟨he.1, he.2⟩, hi0]; rfl]
    have htail := ih (fun x hx => hgood x (List.mem_cons_of_mem _ hx))
    rw [rangesOf] at htail
    simp only [List.map_cons, htail, mkLoc, hi0, Option.getD_some]

/-- Non-interference of two located edits in application order. -/
def locSep (a b : LocEdit) : Prop := a.off + a.old.length ≤ b.off

instance : DecidableRel locSep := fun a b => by
  unfold locSep; infer_instance

instance : IsTrans LocEdit locSep :=
  ⟨fun _ _ _ hab hbc => Nat.le_trans hab (Nat.le_trans (Nat.le_add_right _ _) hbc)⟩

theorem overlapFind_none_iff (l : List LocEdit) :
    ∀ i, overlapFind l i = none ↔ List.Chain' locSep l := by
  induction l with
  | nil => intro i; simp [overlapFind]
  | cons a t ih =>
    cases t with
    | nil => intro i; simp [overlapFind]
    | cons b t' =>
      intro i
      rw [overlapFind, List.chain'_cons]
      by_cases hb : b.off < a.off + a.old.length
      · rw [if_pos hb]
        constructor
        · intro h; cases h
        · intro h
          exact absurd h.1 (by unfold locSep; omega)
      · rw [if_neg hb]
        rw [ih (i + 1)]
        constructor
        · intro h; exact ⟨by unfold locSep; omega, h⟩
        · intro h; exact h.2

theorem pairwise_rangeSep_of_chain {L : List LocEdit}
    (hch : List.Chain' locSep (List.insertionSort (fun a b : LocEdit => a.off ≤ b.off) L)) :
    List.Pairwise rangeSep (L.map (fun le => (le.off, le.off + le.old.length))) := by
  have hp : List.Pairwise locSep
      (List.insertionSort (fun a b : LocEdit => a.off ≤ b.off) L) :=
    List.chain'_iff_pairwise.mp hch
  have hp2 : List.Pairwise (fun a b : LocEdit => locSep a b ∨ locSep b a)
      (List.insertionSort (fun a b : LocEdit => a.off ≤ b.off) L) :=
    hp.imp Or.inl
  have hperm := List.perm_insertionSort (fun a b : LocEdit => a.off ≤ b.off) L
  have hp3 : List.Pairwise (fun a b : LocEdit => locSep a b ∨ locSep b a) L :=
    (hperm.pairwise_iff (fun h => h.symm)).mp hp2
  rw [List.pairwise_map]
  exact hp3.imp (fun h => h)

/-- Any failing condition of the claim drives `validateBatchEdits` to an
error. -/
theorem validateBatchEdits_error_of_bad (D : Str) (edits : List EditEntry)
    (notePath : Str) (hbad : BadBatch D edits) :
    ∃ m, validateBatchEdits D edits notePath = Except.error m := by
  by_cases herrs : (collectVal D edits 0).2 = []
  · have hgood := (collectVal_errs_nil D edits 0).mp herrs
    rcases hbad with hb | hb
    · exfalso
      obtain ⟨e, he, hcase⟩ := hb
      have := hgood e he
      rcases hcase with h | h
      · exact this.1 h
      · exact h this.2
    · have hne : ¬ ((collectVal D edits 0).2 ≠ []) := by
        rw [herrs]; simp
      cases hov : overlapFind
          (List.insertionSort (fun a b : LocEdit => a.off ≤ b.off)
            (collectVal D edits 0).1) 1 with
      | some i =>
        refine ⟨overlapMsg notePath i, ?_⟩
        unfold validateBatchEdits
        rw [if_neg hne]
        simp only [hov]
      | none =>
        exfalso
        apply hb
        have hch := (overlapFind_none_iff _ 1).mp hov
        rw [collectVal_loc_of_good D edits hgood 0] at hch
        rw [rangesOf_of_good D edits hgood]
        exact pairwise_rangeSep_of_chain hch
  · refine ⟨batchValFailMsg notePath (collectVal D edits 0).2, ?_⟩
    unfold validateBatchEdits
    rw [if_pos herrs]

/-- C1.  For every document `D` and edit batch `B`, if any edit of `B`
has an empty `old_text`, or an `old_text` whose occurrence count in `D`
(as counted by the engine) differs from one, or any two matched byte
ranges overlap, then `BatchEditNoteHandler` performs no write — the file
system after the call is the one before it, so the document content is
byte-identical to `D` — and the call reports an error. -/
theorem batch_edit_atomicity (root : GoPath) (fs : FS) (path : Str)
    (D : Str) (edits : List EditEntry)
    (hread : fsRead fs (joinPath root (withMd path)) = some D)
    (hbad : BadBatch D edits) :
    (BatchEditNoteHandler root fs path edits).2 = fs ∧
    ∃ m, (BatchEditNoteHandler root fs path edits).1 = ToolResult.fail m ∧
      fsRead (BatchEditNoteHandler root fs path edits).2
        (joinPath root (withMd path)) = some D := by
  by_cases hsafe : isPathSafe root (joinPath root (withMd path)) = true
  · by_cases hedits : edits = []
    · subst hedits
      refine ⟨?_, ?_⟩
      · simp [BatchEditNoteHandler, hsafe]
      · refine ⟨("edits array is empty").data, ?_, ?_⟩
        · simp [BatchEditNoteHandler, hsafe]
        · simp [BatchEditNoteHandler, hsafe, hread]
    · obtain ⟨m, hval⟩ := validateBatchEdits_error_of_bad D edits (withMd path) hbad
      refine ⟨?_, ?_⟩
      · simp [BatchEditNoteHandler, hsafe, hedits, hread, hval]
      · refine ⟨m, ?_, ?_⟩
        · simp [BatchEditNoteHandler, hsafe, hedits, hread, hval]
        · simp [BatchEditNoteHandler, hsafe, hedits, hread, hval]
  · have hs : isPathSafe root (joinPath root (withMd path)) = false :=
      Bool.eq_false_iff.mpr hsafe
    refine ⟨?_, ?_⟩
    · simp [BatchEditNoteHandler, hs]
    · refine ⟨pathVaultMsg, ?_, ?_⟩
      · simp [BatchEditNoteHandler, hs]
      · simp [BatchEditNoteHandler, hs, hread]

/-- Witness for C1: on `D = "a b a"` the batch `[{a,x},{b,y}]` has a
duplicated `old_text`, so nothing is written. -/
theorem batch_edit_atomicity_witness :
    (BatchEditNoteHandler [['v']] [([['v'], ('n' :: mdExt)], ('a' :: ' ' :: 'b' :: ' ' :: ['a']))]
        ('n' :: mdExt) [⟨['a'], ['x']⟩, ⟨['b'], ['y']⟩]).2 =
      [([['v'], ('n' :: mdExt)], ('a' :: ' ' :: 'b' :: ' ' :: ['a']))] ∧
    ∃ m, (BatchEditNoteHandler [['v']] [([['v'], ('n' :: mdExt)], ('a' :: ' ' :: 'b' :: ' ' :: ['a']))]
        ('n' :: mdExt) [⟨['a'], ['x']⟩, ⟨['b'], ['y']⟩]).1 = ToolResult.fail m ∧
      fsRead (BatchEditNoteHandler [['v']] [([['v'], ('n' :: mdExt)], ('a' :: ' ' :: 'b' :: ' ' :: ['a']))]
          ('n' :: mdExt) [⟨['a'], ['x']⟩, ⟨['b'], ['y']⟩]).2
        (joinPath [['v']] (withMd ('n' :: mdExt))) =
        some ('a' :: ' ' :: 'b' :: ' ' :: ['a']) :=
  batch_edit_atomicity [['v']] [([['v'], ('n' :: mdExt)], ('a' :: ' ' :: 'b' :: ' ' :: ['a']))]
    ('n' :: mdExt) ('a' :: ' ' :: 'b' :: ' ' :: ['a']) [⟨['a'], ['x']⟩, ⟨['b'], ['y']⟩]
    (by decide) (by decide)

/-! ### Claim C4: batch validation completeness and reporting -/

/-- The validation message (if any) produced for the edit at 0-based
index `i`: the report names the edit by its 1-based index `i + 1` and,
for count failures, carries a truncated preview of its `old_text`. -/
def badMsg (D : Str) (i : Nat) (e : EditEntry) : Option Str :=
  if e.old = [] then some (emptyOldMsg i)
  else if countGo D e.old = 0 then some (zeroOldMsg i e.old)
  else if countGo D e.old > 1 then some (dupOldMsg i (countGo D e.old) e.old)
  else none

/-- All validation messages of a batch, in edit order. -/
def badList (D : Str) (edits : List EditEntry) : List Str :=
  edits.enum.filterMap (fun p => badMsg D p.1 p.2)

theorem collectVal_errs_eq (D : Str) (edits : List EditEntry) :
    ∀ i, (collectVal D edits i).2 =
      (edits.enumFrom i).filterMap (fun p => badMsg D p.1 p.2) := by
  induction edits with
  | nil => intro i; simp [collectVal]
  | cons e rest ih =>
    intro i
    rw [collectVal_cons, List.enumFrom_cons, List.filterMap_cons]
    by_cases h0 : e.old = []
    · simp only [if_pos h0, badMsg, ih (i + 1)]
    · rw [if_neg h0]
      by_cases hc0 : countGo D e.old = 0
      · simp only [if_pos hc0, badMsg, if_neg h0, ih (i + 1)]
      · rw [if_neg hc0]
        by_cases hc1 : countGo D e.old > 1
        · simp only [if_pos hc1, badMsg, if_neg h0, if_neg hc0, ih (i + 1)]
        · simp only [if_neg hc1, badMsg, if_neg h0, if_neg hc0, ih (i + 1)]

theorem joinSep_mem_split {sep x : Str} {l : List Str} (h : x ∈ l) :
    ∃ A B, joinSep sep l = A ++ x ++ B := by
  induction l with
  | nil => cases h
  | cons y ys ih =>
    rcases List.mem_cons.mp h with rfl | h
    · cases ys with
      | nil => exact ⟨[], [], by simp [joinSep]⟩
      | cons z zs => exact ⟨[], sep ++ joinSep sep (z :: zs), by simp [joinSep]⟩
    · cases ys with
      | nil => cases h
      | cons z zs =>
        obtain ⟨A, B, hAB⟩ := ih h
        exact ⟨y ++ sep ++ A, B, by simp [joinSep, hAB]⟩

/-- C4.  For every document `D` and edit batch `B` with at least one
failing edit, every edit whose `old_text` is empty, absent from `D`, or
counted more than once contributes its own message — carrying the edit's
1-based index and (for the count failures) a truncated preview of the
`old_text` — and `validateBatchEdits` rejects the whole batch with the
single aggregated report that joins exactly those messages in edit
order (not only the first failure). -/
theorem batch_validation_reporting (D : Str) (edits : List EditEntry)
    (notePath : Str)
    (hbad : ∃ e ∈ edits, e.old = [] ∨ countGo D e.old ≠ 1) :
    validateBatchEdits D edits notePath =
      Except.error (batchValFailMsg notePath (badList D edits)) ∧
    (∀ i (hi : i < edits.length),
      (edits.get ⟨i, hi⟩).old = [] ∨ countGo D (edits.get ⟨i, hi⟩).old ≠ 1 →
      ∃ msg, badMsg D i (edits.get ⟨i, hi⟩) = some msg ∧
        ∃ j, matchAt (batchValFailMsg notePath (badList D edits)) j msg) := by
  have herrs : (collectVal D edits 0).2 = badList D edits := by
    rw [collectVal_errs_eq D edits 0]
    rw [badList, List.enum]
  have hne : (collectVal D edits 0).2 ≠ [] := by
    intro hnil
    have hgood := (collectVal_errs_nil D edits 0).mp hnil
    obtain ⟨e, he, hcase⟩ := hbad
    have := hgood e he
    rcases hcase with h | h
    · exact this.1 h
    · exact h this.2
  constructor
  · unfold validateBatchEdits
    rw [if_pos hne, herrs]
  · intro i hi hbadi
    have hmsg : ∃ msg, badMsg D i (edits.get ⟨i, hi⟩) = some msg := by
      unfold badMsg
      by_cases h0 : (edits.get ⟨i, hi⟩).old = []
      · exact ⟨_, by rw [if_pos h0]⟩
      · rcases hbadi with h | h
        · exact absurd h h0
        · by_cases hc0 : countGo D (edits.get ⟨i, hi⟩).old = 0
          · exact ⟨_, by rw [if_neg h0, if_pos hc0]⟩
          · have hc1 : countGo D (edits.get ⟨i, hi⟩).old > 1 := by omega
            exact ⟨_, by rw [if_neg h0, if_neg hc0, if_pos hc1]⟩
    obtain ⟨msg, hmsg⟩ := hmsg
    refine ⟨msg, hmsg, ?_⟩
    have hmem : msg ∈ badList D edits := by
      rw [badList, List.mem_filterMap]
      refine ⟨(i, edits.get ⟨i, hi⟩), ?_, hmsg⟩
      have hlen : i < edits.enum.length := by simpa using hi
      have hg : edits.enum.get ⟨i, hlen⟩ = (i, edits.get ⟨i, hi⟩) := by
        rw [List.get_eq_getElem, List.getElem_enum]
        rfl
      rw [← hg]
      exact List.get_mem _ _ _
    obtain ⟨A, B, hAB⟩ :=
      @joinSep_mem_split ('\n' :: ('-' :: [' '])) msg (badList D edits) hmem
    refine ⟨(("Batch edit validation failed for ").data ++ notePath ++ (":\n- ").data ++ A).length, ?_⟩
    unfold batchValFailMsg
    rw [hAB]
    have hsplit : ("Batch edit validation failed for ").data ++ notePath ++ (":\n- ").data ++
        (A ++ msg ++ B) =
        (("Batch edit validation failed for ").data ++ notePath ++ (":\n- ").data ++ A) ++
          msg ++ B := by
      simp [List.append_assoc]
    rw [hsplit]
    exact matchAt_of_split

/-- Witness for C4 on `D = "a"` with edits `[{"",z},{q,r},{a,b}]`: the
first two edits fail (empty, not found) and each failure message occurs
in the aggregated report. -/
theorem batch_validation_reporting_witness :
    validateBatchEdits ['a'] [⟨[], ['z']⟩, ⟨['q'], ['r']⟩, ⟨['a'], ['b']⟩] ('n' :: mdExt) =
      Except.error (batchValFailMsg ('n' :: mdExt)
        (badList ['a'] [⟨[], ['z']⟩, ⟨['q'], ['r']⟩, ⟨['a'], ['b']⟩])) ∧
    ∃ msg, badMsg ['a'] 1 (([⟨[], ['z']⟩, ⟨['q'], ['r']⟩, ⟨['a'], ['b']⟩] :
        List EditEntry).get ⟨1, by decide⟩) = some msg ∧
      ∃ j, matchAt (batchValFailMsg ('n' :: mdExt)
        (badList ['a'] [⟨[], ['z']⟩, ⟨['q'], ['r']⟩, ⟨['a'], ['b']⟩])) j msg := by
  have h := batch_validation_reporting ['a']
    [⟨[], ['z']⟩, ⟨['q'], ['r']⟩, ⟨['a'], ['b']⟩] ('n' :: mdExt)
    ⟨⟨[], ['z']⟩, by decide, Or.inl rfl⟩
  exact ⟨h.1, h.2 1 (by decide) (by decide)⟩

/-! ### Claim C5: section replace semantics -/

/-- A line that is a heading whose text equals `h` case-insensitively. -/
def matchesHeading (h l : Str) : Bool :=
  match lineHeading l with
  | some p => eqFold p.2 h
  | none => false

/-- A line that is a heading of level at most `L` (a section boundary). -/
def isBoundary (L : Nat) (l : Str) : Bool :=
  match lineHeading l with
  | some p => decide (p.1 ≤ L)
  | none => false

/-- The line index at which the section of boundary level `L` headed at
line `s` ends: the next heading of level `≤ L`, or end of document. -/
def secEndIdx (L : Nat) (lines : List Str) (s : Nat) : Nat :=
  match firstIdx (isBoundary L) (lines.drop (s + 1)) with
  | some k => s + 1 + k
  | none => lines.length

theorem map_shift (x : Option Nat) (j : Nat) :
    (x.map (· + 1)).map (fun m => j + m) = x.map (fun m => (j + 1) + m) := by
  cases x with
  | none => rfl
  | some m =>
    show some (j + (m + 1)) = some (j + 1 + m)
    congr 1
    omega

theorem scanSec_after (h : Str) :
    ∀ (B : List Str) (j sIdx L : Nat),
      scanSec h B j (some (sIdx, L)) =
        some (sIdx, L, (firstIdx (isBoundary L) B).map (fun m => j + m)) := by
  intro B
  induction B with
  | nil => intro j sIdx L; simp [scanSec, firstIdx]
  | cons l rest ih =>
    intro j sIdx L
    cases hlh : lineHeading l with
    | none =>
      have hb : isBoundary L l = false := by simp [isBoundary, hlh]
      simp only [scanSec, hlh, firstIdx, hb, Bool.false_eq_true, if_false]
      rw [ih, map_shift]
    | some p =>
      by_cases hle : p.1 ≤ L
      · have hb : isBoundary L l = true := by simp [isBoundary, hlh, hle]
        simp only [scanSec, hlh, firstIdx, hb, if_true, if_pos hle]
        simp
      · have hb : isBoundary L l = false := by simp [isBoundary, hlh, hle]
        simp only [scanSec, hlh, firstIdx, hb, Bool.false_eq_true, if_false,
          if_neg hle]
        rw [ih, map_shift]

theorem scanSec_found (h : Str) :
    ∀ (lines : List Str) (i k lv : Nat) (lk tx : Str),
      firstIdx (matchesHeading h) lines = some k →
      lines[k]? = some lk →
      lineHeading lk = some (lv, tx) →
      scanSec h lines i none =
        some (i + k, lv,
          (firstIdx (isBoundary lv) (lines.drop (k + 1))).map
            (fun m => i + (k + 1) + m)) := by
  intro lines
  induction lines with
  | nil =>
    intro i k lv lk tx hf
    simp [firstIdx] at hf
  | cons l rest ih =>
    intro i k lv lk tx hf hl hlh
    by_cases hm : matchesHeading h l = true
    · rw [firstIdx, if_pos hm] at hf
      have hk : k = 0 := by cases hf; rfl
      subst hk
      have hlk : lk = l := by
        simp at hl
        exact hl.symm
      subst hlk
      have heq : eqFold tx h = true := by
        unfold matchesHeading at hm
        rw [hlh] at hm
        exact hm
      simp only [scanSec, hlh, heq, if_true]
      rw [scanSec_after]
      simp only [List.drop_succ_cons, List.drop_zero, Nat.add_zero]
    · rw [firstIdx, if_neg hm] at hf
      cases hfr : firstIdx (matchesHeading h) rest with
      | none => rw [hfr] at hf; cases hf
      | some k' =>
        rw [hfr] at hf
        have hk : k = k' + 1 := by
          simp at hf
          omega
        subst hk
        have hl' : rest[k']? = some lk := by
          simpa using hl
        have hrec := ih (i + 1) k' lv lk tx hfr hl' hlh
        cases hlh2 : lineHeading l with
        | none =>
          simp only [scanSec, hlh2]
          rw [hrec, show (i + 1) + k' = i + (k' + 1) from by omega,
            show (i + 1) + (k' + 1) = i + (k' + 1 + 1) from by omega]
          simp only [List.drop_succ_cons]
        | some p =>
          have hne : eqFold p.2 h = false := by
            unfold matchesHeading at hm
            rw [hlh2] at hm
            simpa using hm
          simp only [scanSec, hlh2, hne, Bool.false_eq_true, if_false]
          rw [hrec, show (i + 1) + k' = i + (k' + 1) from by omega,
            show (i + 1) + (k' + 1) = i + (k' + 1 + 1) from by omega]
          simp only [List.drop_succ_cons]

theorem splitC_ne_nil (sep : Char) (s : Str) : splitC sep s ≠ [] := by
  cases s with
  | nil => simp [splitC]
  | cons c rest =>
    rw [splitC]
    cases splitC sep rest with
    | nil => simp
    | cons h t =>
      dsimp only
      by_cases hc : c = sep
      · rw [if_pos hc]; simp
      · rw [if_neg hc]; simp

theorem splitNL_cons_nl (y : Str) : splitNL ('\n' :: y) = [] :: splitNL y := by
  show splitC '\n' ('\n' :: y) = [] :: splitC '\n' y
  rw [splitC]
  cases hy : splitC '\n' y with
  | nil => exact absurd hy (splitC_ne_nil _ _)
  | cons h t =>
    dsimp only
    rw [if_pos rfl]

theorem splitNL_append_nl (x : Str) : splitNL (x ++ ['\n']) = splitNL x ++ [[]] := by
  induction x with
  | nil =>
    show splitC '\n' ['\n'] = [[]] ++ [[]]
    rfl
  | cons c x ih =>
    show splitC '\n' (c :: (x ++ ['\n'])) = splitC '\n' (c :: x) ++ [[]]
    rw [splitC]
    rw [show splitC '\n' (x ++ ['\n']) = splitNL (x ++ ['\n']) from rfl, ih]
    cases hx : splitNL x with
    | nil => exact absurd hx (splitC_ne_nil _ _)
    | cons h t =>
      rw [show splitC '\n' (c :: x) = (match splitC '\n' x with
        | [] => [[]]
        | h :: t => if c = '\n' then [] :: h :: t else (c :: h) :: t) from rfl]
      rw [show splitC '\n' x = splitNL x from rfl, hx]
      simp only [List.cons_append]
      by_cases hc : c = '\n'
      · rw [if_pos hc, if_pos hc]
        simp
      · rw [if_neg hc, if_neg hc]
        simp

/-- C5.  For every document `D` containing a heading whose text matches
the requested heading case-insensitively (first such heading, level
`lv`), `ReplaceSectionHandler` writes back the lines of `D` up to and
including that heading line, followed by the caller's content with
trailing newlines trimmed and wrapped with exactly one leading and one
trailing blank line, followed by the lines of `D` starting at the next
heading of level at most `lv` — or nothing after the new content if no
such heading follows — so deeper-nested subheadings inside the section
are replaced along with it. -/
theorem section_replace_semantics
    (root : GoPath) (fs : FS) (path heading content D lk tx : Str) (s lv : Nat)
    (hsafe : isPathSafe root (joinPath root (withMd path)) = true)
    (hread : fsRead fs (joinPath root (withMd path)) = some D)
    (hfound : firstIdx (matchesHeading heading) (splitNL D) = some s)
    (hline : (splitNL D)[s]? = some lk)
    (hlh : lineHeading lk = some (lv, tx)) :
    ReplaceSectionHandler root fs path heading content =
      (ToolResult.text (sectionMsg heading (withMd path)
          (secEndIdx lv (splitNL D) s - (s + 1))
          ((splitNL (trimNLRight content)).length + 2)),
        fsWrite fs (joinPath root (withMd path))
          (joinNL ((splitNL D).take (s + 1) ++
            ([] :: splitNL (trimNLRight content) ++ [[]]) ++
            (splitNL D).drop (secEndIdx lv (splitNL D) s)))) := by
  have hscan := scanSec_found heading (splitNL D) 0 s lv lk tx hfound hline hlh
  simp only [Nat.zero_add] at hscan
  have hE : ((firstIdx (isBoundary lv) ((splitNL D).drop (s + 1))).map
      (fun m => s + 1 + m)).getD (splitNL D).length = secEndIdx lv (splitNL D) s := by
    unfold secEndIdx
    cases firstIdx (isBoundary lv) ((splitNL D).drop (s + 1)) with
    | none => rfl
    | some k => rfl
  have hwrap : splitNL (('\n' :: trimNLRight content) ++ ['\n']) =
      ([] :: splitNL (trimNLRight content)) ++ [[]] := by
    rw [List.cons_append, splitNL_cons_nl, splitNL_append_nl, ← List.cons_append]
  have hlen : (([] :: splitNL (trimNLRight content)) ++ [[]]).length =
      (splitNL (trimNLRight content)).length + 2 := by
    simp
  simp only [ReplaceSectionHandler, hsafe, not_true_eq_false, if_false, hread, hscan]
  simp only [hwrap, hE, hlen]

/-- Witness for C5 on the spec's own scenario: document
`"# H\n\nold line\n\n## Sub\nkeep"`, heading `H`, content `"new line"`
(the nested `## Sub` subsection is removed with the section). -/
theorem section_replace_semantics_witness :
    ReplaceSectionHandler [['v']]
        [([['v'], ('n' :: mdExt)], ("# H\n\nold line\n\n## Sub\nkeep").data)]
        ('n' :: mdExt) ['H'] (("new line").data) =
      (ToolResult.text (sectionMsg ['H'] (withMd ('n' :: mdExt))
          (secEndIdx 1 (splitNL ("# H\n\nold line\n\n## Sub\nkeep").data) 0 - (0 + 1))
          ((splitNL (trimNLRight (("new line").data))).length + 2)),
        fsWrite [([['v'], ('n' :: mdExt)], ("# H\n\nold line\n\n## Sub\nkeep").data)]
          (joinPath [['v']] (withMd ('n' :: mdExt)))
          (joinNL ((splitNL ("# H\n\nold line\n\n## Sub\nkeep").data).take (0 + 1) ++
            ([] :: splitNL (trimNLRight (("new line").data)) ++ [[]]) ++
            (splitNL ("# H\n\nold line\n\n## Sub\nkeep").data).drop
              (secEndIdx 1 (splitNL ("# H\n\nold line\n\n## Sub\nkeep").data) 0)))) :=
  section_replace_semantics [['v']]
    [([['v'], ('n' :: mdExt)], ("# H\n\nold line\n\n## Sub\nkeep").data)]
    ('n' :: mdExt) ['H'] (("new line").data) (("# H\n\nold line\n\n## Sub\nkeep").data)
    (("# H").data) ['H'] 0 1
    (by decide) (by decide) (by decide) (by decide) (by decide)

/-! ### Claim C6: path guard -/

/-- Segment-list prefix: `full` is equal to or nested under `root`. -/
def segsPref : GoPath → GoPath → Bool
  | [], _ => true
  | _ :: _, [] => false
  | a :: p, b :: s => a = b && segsPref p s

theorem commonLen_le (a b : GoPath) : commonLen a b ≤ a.length := by
  induction a generalizing b with
  | nil => simp [commonLen]
  | cons x xs ih =>
    cases b with
    | nil => simp [commonLen]
    | cons y ys =>
      rw [commonLen]
      by_cases hxy : x = y
      · rw [if_pos hxy]
        have := ih ys
        simp
        omega
      · rw [if_neg hxy]
        simp

theorem segsPref_of_commonLen (a : GoPath) :
    ∀ b, commonLen a b = a.length → segsPref a b = true := by
  induction a with
  | nil => intro b _; rfl
  | cons x xs ih =>
    intro b h
    cases b with
    | nil =>
      exfalso
      have h0 : commonLen (x :: xs) ([] : GoPath) = 0 := rfl
      rw [h0] at h
      have h1 : (x :: xs).length = xs.length + 1 := rfl
      omega
    | cons y ys =>
      rw [commonLen] at h
      by_cases hxy : x = y
      · rw [if_pos hxy] at h
        subst hxy
        rw [segsPref]
        have h2 : commonLen xs ys = xs.length := by
          have h1 : (x :: xs).length = xs.length + 1 := rfl
          omega
        simp [ih ys h2]
      · rw [if_neg hxy] at h
        exfalso
        have := commonLen_le xs ys
        have h1 : (x :: xs).length = xs.length + 1 := rfl
        omega

/-- A cleaned join that is not under the vault root is rejected by
`isPathSafe`: its relative form starts with a `..` segment. -/
theorem isPathSafe_false_of_not_pref (root full : GoPath)
    (h : segsPref root full = false) : isPathSafe root full = false := by
  have hk : commonLen root full < root.length := by
    have hle := commonLen_le root full
    rcases Nat.lt_or_ge (commonLen root full) root.length with hlt | hge
    · exact hlt
    · exfalso
      have : commonLen root full = root.length := by omega
      rw [segsPref_of_commonLen root full this] at h
      cases h
  obtain ⟨m, hm⟩ : ∃ m, root.length - commonLen root full = m + 1 :=
    ⟨root.length - commonLen root full - 1, by omega⟩
  have hrel : goRel root full =
      ['.', '.'] :: (List.replicate m ['.', '.'] ++ full.drop (commonLen root full)) := by
    simp only [goRel]
    rw [hm, List.replicate_succ]
    rw [if_neg (by simp)]
    simp
  simp only [isPathSafe, hrel]
  simp [begins]

/-- C6 counterexample: for the caller-supplied path `".."` the cleaned
join of the vault root `/v` with the path is `/` — not within the vault
root — yet `ReadNoteHandler` does not return the path-must-be-within-
vault error (the `.md`-suffix check rejects first with a different
message and `EditNoteHandler` would first append `.md`). -/
theorem path_guard_counterexample :
    segsPref [['v']] (joinPath [['v']] ['.', '.']) = false ∧
    (ReadNoteHandler [['v']] [] ['.', '.']).1 ≠ ToolResult.fail pathVaultMsg := by
  decide

/-- C6 (amended).  For every caller-supplied relative path that ends in
`.md`, if the lexically cleaned join of the vault root and that path is
not equal to or nested under the vault root, then every handler (read,
write, delete, edit, batch edit, section replace) returns the
path-must-be-within-vault error and leaves the file system unchanged. -/
theorem path_guard_rejects (root : GoPath) (fs : FS)
    (p content old new heading secContent : Str)
    (replaceAll : Bool) (edits : List EditEntry)
    (hmd : endsL mdExt p = true)
    (hesc : segsPref root (joinPath root p) = false) :
    ReadNoteHandler root fs p = (ToolResult.fail pathVaultMsg, fs) ∧
    WriteNoteHandler root fs p content = (ToolResult.fail pathVaultMsg, fs) ∧
    DeleteNoteHandler root fs p = (ToolResult.fail pathVaultMsg, fs) ∧
    EditNoteHandler root fs p old new replaceAll = (ToolResult.fail pathVaultMsg, fs) ∧
    BatchEditNoteHandler root fs p edits = (ToolResult.fail pathVaultMsg, fs) ∧
    ReplaceSectionHandler root fs p heading secContent = (ToolResult.fail pathVaultMsg, fs) := by
  have hsafe : isPathSafe root (joinPath root p) = false :=
    isPathSafe_false_of_not_pref root (joinPath root p) hesc
  have hwm : withMd p = p := by
    unfold withMd
    rw [if_pos hmd]
  refine ⟨?_, ?_, ?_, ?_, ?_, ?_⟩
  · simp [ReadNoteHandler, hmd, hsafe]
  · simp [WriteNoteHandler, hmd, hsafe]
  · simp [DeleteNoteHandler, hmd, hsafe]
  · simp [EditNoteHandler, hwm, hsafe]
  · simp [BatchEditNoteHandler, hwm, hsafe]
  · simp [ReplaceSectionHandler, hwm, hsafe]

/-- Witness for the amended C6 at path `"../x.md"` against root `/v`. -/
theorem path_guard_rejects_witness :
    ReadNoteHandler [['v']] [] (("../x.md").data) = (ToolResult.fail pathVaultMsg, []) ∧
    WriteNoteHandler [['v']] [] (("../x.md").data) ['c'] = (ToolResult.fail pathVaultMsg, []) ∧
    DeleteNoteHandler [['v']] [] (("../x.md").data) = (ToolResult.fail pathVaultMsg, []) ∧
    EditNoteHandler [['v']] [] (("../x.md").data) ['a'] ['b'] false =
      (ToolResult.fail pathVaultMsg, []) ∧
    BatchEditNoteHandler [['v']] [] (("../x.md").data) [⟨['a'], ['b']⟩] =
      (ToolResult.fail pathVaultMsg, []) ∧
    ReplaceSectionHandler [['v']] [] (("../x.md").data) ['H'] ['c'] =
      (ToolResult.fail pathVaultMsg, []) :=
  path_guard_rejects [['v']] [] (("../x.md").data) ['c'] ['a'] ['b'] ['H'] ['c']
    false [⟨['a'], ['b']⟩] (by decide) (by decide)

/-! ### Claim C7: frontmatter set-key idempotence -/

theorem mem_splitC {sep : Char} {s l : Str} (h : l ∈ splitC sep s) : sep ∉ l := by
  induction s generalizing l with
  | nil =>
    simp only [splitC, List.mem_singleton] at h
    subst h
    simp
  | cons c rest ih =>
    rw [splitC] at h
    cases hr : splitC sep rest with
    | nil => exact absurd hr (splitC_ne_nil _ _)
    | cons h0 t =>
      rw [hr] at h
      dsimp only at h
      by_cases hc : c = sep
      · rw [if_pos hc] at h
        rcases List.mem_cons.mp h with rfl | h2
        · simp
        · exact ih (by rw [hr]; exact h2)
      · rw [if_neg hc] at h
        rcases List.mem_cons.mp h with rfl | h2
        · intro hmem
          rcases List.mem_cons.mp hmem with rfl | hmem2
          · exact hc rfl
          · exact ih (by rw [hr]; exact List.mem_cons_self h0 t) hmem2
        · exact ih (by rw [hr]; exact List.mem_cons_of_mem h0 h2)

theorem splitNL_no_nl {s : Str} (h : '\n' ∉ s) : splitNL s = [s] := by
  induction s with
  | nil => rfl
  | cons c rest ih =>
    have hc : ¬ c = '\n' := fun hc => h (hc ▸ List.mem_cons_self c rest)
    have hr : '\n' ∉ rest := fun hm => h (List.mem_cons_of_mem c hm)
    show splitC '\n' (c :: rest) = [c :: rest]
    rw [splitC, show splitC '\n' rest = [rest] from ih hr]
    dsimp only
    rw [if_neg hc]

theorem joinNL_cons_cons (l m : Str) (ls : List Str) :
    joinNL (l :: m :: ls) = l ++ '\n' :: joinNL (m :: ls) := rfl

theorem joinNL_splitNL (s : Str) : joinNL (splitNL s) = s := by
  induction s with
  | nil => rfl
  | cons c rest ih =>
    show joinNL (splitC '\n' (c :: rest)) = c :: rest
    rw [splitC]
    cases hr : splitC '\n' rest with
    | nil => exact absurd hr (splitC_ne_nil _ _)
    | cons h0 t =>
      dsimp only
      rw [show splitNL rest = h0 :: t from hr] at ih
      by_cases hc : c = '\n'
      · rw [if_pos hc, joinNL_cons_cons, ih, hc]
        rfl
      · rw [if_neg hc]
        cases t with
        | nil =>
          show c :: h0 = c :: rest
          exact congrArg (List.cons c) ih
        | cons m t2 =>
          rw [joinNL_cons_cons]
          show c :: (h0 ++ '\n' :: joinNL (m :: t2)) = c :: rest
          rw [← joinNL_cons_cons, ih]

theorem splitNL_append_cons {a : Str} (h : '\n' ∉ a) (b : Str) :
    splitNL (a ++ '\n' :: b) = a :: splitNL b := by
  induction a with
  | nil => exact splitNL_cons_nl b
  | cons c a2 ih =>
    have hc : ¬ c = '\n' := fun hc => h (hc ▸ List.mem_cons_self c a2)
    have ha : '\n' ∉ a2 := fun hm => h (List.mem_cons_of_mem c hm)
    show splitC '\n' (c :: (a2 ++ '\n' :: b)) = (c :: a2) :: splitNL b
    rw [splitC, show splitC '\n' (a2 ++ '\n' :: b) = a2 :: splitNL b from ih ha]
    dsimp only
    rw [if_neg hc]

theorem splitNL_joinNL :
    ∀ (ls : List Str), ls ≠ [] → (∀ l ∈ ls, '\n' ∉ l) →
      splitNL (joinNL ls) = ls := by
  intro ls
  induction ls with
  | nil => intro hne _; exact absurd rfl hne
  | cons l t ih =>
    intro _ h
    cases t with
    | nil => exact splitNL_no_nl (h l (List.mem_cons_self _ _))
    | cons m t2 =>
      rw [joinNL_cons_cons, splitNL_append_cons (h l (List.mem_cons_self _ _))]
      rw [ih (by simp) (fun x hx => h x (List.mem_cons_of_mem l hx))]

theorem firstIdx_spec {p : Str → Bool} (B : List Str) {A : List Str} {b : Str}
    (hA : ∀ a ∈ A, p a = false) (hb : p b = true) :
    firstIdx p (A ++ b :: B) = some A.length := by
  induction A with
  | nil =>
    show firstIdx p (b :: B) = some 0
    simp only [firstIdx]
    rw [if_pos hb]
  | cons a A2 ih =>
    have ha : ¬ p a = true := by
      rw [hA a (List.mem_cons_self a A2)]
      simp
    show firstIdx p (a :: (A2 ++ b :: B)) = some (A2.length + 1)
    simp only [firstIdx]
    rw [if_neg ha, ih (fun x hx => hA x (List.mem_cons_of_mem a hx))]
    rfl

theorem firstIdx_eq_some {p : Str → Bool} :
    ∀ {ls : List Str} {j : Nat}, firstIdx p ls = some j →
      ∃ A b B, ls = A ++ b :: B ∧ A.length = j ∧ p b = true ∧
        ∀ a ∈ A, p a = false := by
  intro ls
  induction ls with
  | nil => intro j h; simp [firstIdx] at h
  | cons l t ih =>
    intro j h
    simp only [firstIdx] at h
    by_cases hl : p l = true
    · rw [if_pos hl] at h
      cases h
      exact ⟨[], l, t, rfl, rfl, hl, by simp⟩
    · rw [if_neg hl] at h
      cases hr : firstIdx p t with
      | none => rw [hr] at h; simp at h
      | some j2 =>
        rw [hr] at h
        have hj : j2 + 1 = j := by simpa using h
        obtain ⟨A, b, B, hT, hlen, hb, hA⟩ := ih hr
        refine ⟨l :: A, b, B, by rw [hT]; rfl, by simp [hlen, ← hj], hb, ?_⟩
        intro a ha
        rcases List.mem_cons.mp ha with rfl | ha2
        · exact Bool.eq_false_iff.mpr hl
        · exact hA a ha2

theorem firstIdx_eq_none {p : Str → Bool} :
    ∀ {ls : List Str}, firstIdx p ls = none → ∀ l ∈ ls, p l = false := by
  intro ls
  induction ls with
  | nil => intro _ l hl; simp at hl
  | cons x t ih =>
    intro h l hl
    simp only [firstIdx] at h
    by_cases hx : p x = true
    · rw [if_pos hx] at h; cases h
    · rw [if_neg hx] at h
      rcases List.mem_cons.mp hl with rfl | h2
      · exact Bool.eq_false_iff.mpr hx
      · refine ih ?_ l h2
        cases hr : firstIdx p t with
        | none => rfl
        | some j => rw [hr] at h; simp at h

theorem set_append_len {α : Type} (A : List α) (b c : α) (B : List α) :
    (A ++ b :: B).set A.length c = A ++ c :: B := by
  induction A with
  | nil => rfl
  | cons a A2 ih =>
    show a :: (A2 ++ b :: B).set A2.length c = a :: (A2 ++ c :: B)
    rw [ih]

theorem take_len_append {α : Type} (A B : List α) : (A ++ B).take A.length = A := by
  induction A with
  | nil => rfl
  | cons a A2 ih =>
    show a :: (A2 ++ B).take A2.length = a :: A2
    rw [ih]

theorem drop_len_append {α : Type} (A B : List α) : (A ++ B).drop A.length = B := by
  induction A with
  | nil => rfl
  | cons a A2 ih => exact ih

theorem lowerC_nl {c : Char} (h : lowerC c = '\n') : c = '\n' := by
  by_cases hr : 65 ≤ c.toNat ∧ c.toNat ≤ 90
  · exfalso
    have ht : (lowerC c).toNat = c.toNat + 32 := by
      unfold lowerC
      rw [if_pos hr]
      have hv : (c.toNat + 32).isValidChar := Or.inl (by omega)
      show (Char.ofNat (c.toNat + 32)).toNat = c.toNat + 32
      unfold Char.ofNat
      rw [dif_pos hv]
      rfl
    rw [h] at ht
    have h10 : ('\n').toNat = 10 := rfl
    omega
  · unfold lowerC at h
    rwa [if_neg hr] at h

theorem nl_not_mem_lowerL {s : Str} (h : '\n' ∉ s) : '\n' ∉ lowerL s := by
  intro hm
  obtain ⟨c, hc, he⟩ := List.mem_map.mp hm
  exact h ((lowerC_nl he) ▸ hc)

theorem kv_ne_dashes (k value : Str) : k ++ ':' :: ' ' :: value ≠ dashes := by
  intro h
  have hmem : ':' ∈ k ++ ':' :: ' ' :: value :=
    List.mem_append_right k (List.mem_cons_self _ _)
  rw [h] at hmem
  simp [dashes] at hmem

theorem nl_not_mem_kv {key value : Str} (hk : '\n' ∉ key) (hv : '\n' ∉ value) :
    '\n' ∉ lowerL key ++ ':' :: ' ' :: value := by
  intro hm
  rcases List.mem_append.mp hm with h | h
  · exact nl_not_mem_lowerL hk h
  · rcases List.mem_cons.mp h with h2 | h2
    · exact absurd h2 (by decide)
    · rcases List.mem_cons.mp h2 with h3 | h3
      · exact absurd h3 (by decide)
      · exact hv h3

theorem begins_key_kv (key value : Str) :
    begins (lowerL key ++ [':']) (lowerL (lowerL key ++ ':' :: ' ' :: value)) = true := by
  have h2 : lowerL (lowerL key ++ ':' :: ' ' :: value) =
      lowerL key ++ ':' :: ' ' :: lowerL value := by
    rw [show lowerL (lowerL key ++ ':' :: ' ' :: value) =
        lowerL (lowerL key) ++ lowerL (':' :: ' ' :: value) from List.map_append _ _ _]
    rw [lowerL_idem]
    show lowerL key ++ lowerC ':' :: lowerC ' ' :: lowerL value =
      lowerL key ++ ':' :: ' ' :: lowerL value
    rfl
  rw [h2, show lowerL key ++ ':' :: ' ' :: lowerL value =
      (lowerL key ++ [':']) ++ ' ' :: lowerL value from by simp]
  exact begins_append _ _

theorem setFM_def (C key value : Str) :
    setFrontmatterKey C key value =
      (match splitNL C with
       | [] => dashes ++ '\n' :: (lowerL key ++ ':' :: ' ' :: value) ++
           '\n' :: dashes ++ '\n' :: '\n' :: C
       | l0 :: rest =>
         match (if l0 = dashes then firstIdx (fun l => l = dashes) rest else none) with
         | some j =>
           match firstIdx (fun l => begins (lowerL key ++ [':']) (lowerL l))
               (rest.take j) with
           | some i => joinNL (l0 :: rest.set i (lowerL key ++ ':' :: ' ' :: value))
           | none => joinNL (l0 ::
               (rest.take j ++ (lowerL key ++ ':' :: ' ' :: value) :: rest.drop j))
         | none => dashes ++ '\n' :: (lowerL key ++ ':' :: ' ' :: value) ++
             '\n' :: dashes ++ '\n' :: '\n' :: C) := rfl

theorem setFM_eq_synth {C : Str} (key value : Str) {l0 : Str} {rest : List Str}
    (hsp : splitNL C = l0 :: rest)
    (hcase : (if l0 = dashes then firstIdx (fun l => l = dashes) rest else none) = none) :
    setFrontmatterKey C key value =
      dashes ++ '\n' :: (lowerL key ++ ':' :: ' ' :: value) ++
        '\n' :: dashes ++ '\n' :: '\n' :: C := by
  rw [setFM_def, hsp]
  dsimp only
  rw [hcase]

theorem setFM_eq_found {C : Str} (key value : Str) {rest : List Str} {j i : Nat}
    (hsp : splitNL C = dashes :: rest)
    (hj : firstIdx (fun l => l = dashes) rest = some j)
    (hi : firstIdx (fun l => begins (lowerL key ++ [':']) (lowerL l)) (rest.take j) =
      some i) :
    setFrontmatterKey C key value =
      joinNL (dashes :: rest.set i (lowerL key ++ ':' :: ' ' :: value)) := by
  rw [setFM_def, hsp]
  dsimp only
  rw [if_pos rfl, hj]
  dsimp only
  rw [hi]

theorem setFM_eq_insert {C : Str} (key value : Str) {rest : List Str} {j : Nat}
    (hsp : splitNL C = dashes :: rest)
    (hj : firstIdx (fun l => l = dashes) rest = some j)
    (hi : firstIdx (fun l => begins (lowerL key ++ [':']) (lowerL l)) (rest.take j) =
      none) :
    setFrontmatterKey C key value =
      joinNL (dashes ::
        (rest.take j ++ (lowerL key ++ ':' :: ' ' :: value) :: rest.drop j)) := by
  rw [setFM_def, hsp]
  dsimp only
  rw [if_pos rfl, hj]
  dsimp only
  rw [hi]

/-- C7 counterexample: with a value that itself contains a newline and a
closing `---` marker, the first application synthesizes a frontmatter
block whose value spills over several lines, and the second application
rewrites the spilled block again, so set-key is not idempotent for
arbitrary values. -/
theorem frontmatter_set_counterexample :
    setFrontmatterKey (setFrontmatterKey [] ['k'] (("a\n---\nb").data))
        ['k'] (("a\n---\nb").data) ≠
      setFrontmatterKey [] ['k'] (("a\n---\nb").data) := by
  decide

/-- **C7** (amended).  Frontmatter set-key idempotence: for every content
string `C` and every key and value free of newline characters (the shape
a one-line `key: value` entry presupposes), applying `setFrontmatterKey`
twice with the same key and value equals applying it once, covering all
three cases: key present and replaced in place, key absent and inserted
before the closing marker, and no frontmatter block so a new block is
synthesized. -/
theorem frontmatter_set_idempotent (C key value : Str)
    (hk : '\n' ∉ key) (hv : '\n' ∉ value) :
    setFrontmatterKey (setFrontmatterKey C key value) key value =
      setFrontmatterKey C key value := by
  have hkvnl : '\n' ∉ lowerL key ++ ':' :: ' ' :: value := nl_not_mem_kv hk hv
  have hkvd := kv_ne_dashes (lowerL key) value
  have hbkv := begins_key_kv key value
  have hdnl : '\n' ∉ dashes := by decide
  have hsynth : setFrontmatterKey
      (dashes ++ '\n' :: (lowerL key ++ ':' :: ' ' :: value) ++
        '\n' :: dashes ++ '\n' :: '\n' :: C) key value =
      dashes ++ '\n' :: (lowerL key ++ ':' :: ' ' :: value) ++
        '\n' :: dashes ++ '\n' :: '\n' :: C := by
    have hR : splitNL (dashes ++ '\n' :: (lowerL key ++ ':' :: ' ' :: value) ++
        '\n' :: dashes ++ '\n' :: '\n' :: C) =
        dashes :: (lowerL key ++ ':' :: ' ' :: value) :: dashes :: [] :: splitNL C := by
      rw [List.append_assoc, List.append_assoc, List.cons_append,
        splitNL_append_cons hdnl, List.cons_append, splitNL_append_cons hkvnl,
        splitNL_append_cons hdnl, splitNL_cons_nl]
    have hA1 : ∀ a ∈ [lowerL key ++ ':' :: ' ' :: value],
        decide (a = dashes) = false := by
      intro a ha
      rw [List.mem_singleton] at ha
      subst ha
      exact decide_eq_false hkvd
    have hA0 : ∀ a ∈ ([] : List Str),
        begins (lowerL key ++ [':']) (lowerL a) = false := by
      intro a ha
      exact absurd ha (List.not_mem_nil a)
    rw [setFM_eq_found key value hR
      (firstIdx_spec ([] :: splitNL C) hA1 (decide_eq_true rfl))
      (firstIdx_spec [] hA0 hbkv)]
    show joinNL (dashes :: (lowerL key ++ ':' :: ' ' :: value) ::
      dashes :: [] :: splitNL C) = _
    rw [← hR]
    exact joinNL_splitNL _
  cases hsp : splitNL C with
  | nil => exact absurd hsp (splitC_ne_nil '\n' C)
  | cons l0 rest =>
    have hrestnl : ∀ l ∈ rest, '\n' ∉ l := fun l hl =>
      mem_splitC (show l ∈ splitNL C by rw [hsp]; exact List.mem_cons_of_mem _ hl)
    by_cases hl0 : l0 = dashes
    · subst hl0
      cases hj : firstIdx (fun l => l = dashes) rest with
      | none =>
        rw [setFM_eq_synth key value hsp (by rw [if_pos rfl]; exact hj)]
        exact hsynth
      | some j =>
        obtain ⟨A, b, B, hrest, hlen, hbp, hAp⟩ := firstIdx_eq_some hj
        have hbd : b = dashes := of_decide_eq_true hbp
        subst hbd
        have hAd : ∀ a ∈ A, ¬ a = dashes := fun a ha => of_decide_eq_false (hAp a ha)
        have htake : rest.take j = A := by
          rw [hrest, ← hlen, take_len_append]
        have hdrop : rest.drop j = dashes :: B := by
          rw [hrest, ← hlen, drop_len_append]
        have hAnl : ∀ l ∈ A, '\n' ∉ l := fun l hl =>
          hrestnl l (by rw [hrest]; exact List.mem_append_left _ hl)
        have hBnl : ∀ l ∈ B, '\n' ∉ l := fun l hl =>
          hrestnl l
            (by rw [hrest]; exact List.mem_append_right _ (List.mem_cons_of_mem _ hl))
        cases hi : firstIdx (fun l => begins (lowerL key ++ [':']) (lowerL l))
            (rest.take j) with
        | some i =>
          have hiA : firstIdx (fun l => begins (lowerL key ++ [':']) (lowerL l)) A =
              some i := by
            rw [← htake]
            exact hi
          obtain ⟨P, q, Q, hA2, hPlen, hqb, hPp⟩ := firstIdx_eq_some hiA
          have hPnl : ∀ l ∈ P, '\n' ∉ l := fun l hl =>
            hAnl l (by rw [hA2]; exact List.mem_append_left _ hl)
          have hQnl : ∀ l ∈ Q, '\n' ∉ l := fun l hl =>
            hAnl l
              (by rw [hA2]; exact List.mem_append_right _ (List.mem_cons_of_mem _ hl))
          have hPd : ∀ a ∈ P, ¬ a = dashes := fun a ha =>
            hAd a (by rw [hA2]; exact List.mem_append_left _ ha)
          have hQd : ∀ a ∈ Q, ¬ a = dashes := fun a ha =>
            hAd a
              (by rw [hA2]; exact List.mem_append_right _ (List.mem_cons_of_mem _ ha))
          have hrs : rest.set i (lowerL key ++ ':' :: ' ' :: value) =
              P ++ (lowerL key ++ ':' :: ' ' :: value) :: (Q ++ dashes :: B) := by
            rw [hrest, hA2, List.append_assoc, List.cons_append, ← hPlen,
              set_append_len]
          have hfree : ∀ l ∈ dashes ::
              rest.set i (lowerL key ++ ':' :: ' ' :: value), '\n' ∉ l := by
            intro l hl
            rcases List.mem_cons.mp hl with rfl | hl2
            · exact hdnl
            · rw [hrs] at hl2
              rcases List.mem_append.mp hl2 with h | h
              · exact hPnl l h
              · rcases List.mem_cons.mp h with rfl | h2
                · exact hkvnl
                · rcases List.mem_append.mp h2 with h3 | h3
                  · exact hQnl l h3
                  · rcases List.mem_cons.mp h3 with rfl | h4
                    · exact hdnl
                    · exact hBnl l h4
          have hsplitR : splitNL (joinNL (dashes ::
              rest.set i (lowerL key ++ ':' :: ' ' :: value))) =
              dashes :: rest.set i (lowerL key ++ ':' :: ' ' :: value) :=
            splitNL_joinNL _ (by simp) hfree
          have hA2d : ∀ a ∈ P ++ (lowerL key ++ ':' :: ' ' :: value) :: Q,
              decide (a = dashes) = false := by
            intro a ha
            rcases List.mem_append.mp ha with h | h
            · exact decide_eq_false (hPd a h)
            · rcases List.mem_cons.mp h with rfl | h2
              · exact decide_eq_false hkvd
              · exact decide_eq_false (hQd a h2)
          have hrs2 : rest.set i (lowerL key ++ ':' :: ' ' :: value) =
              (P ++ (lowerL key ++ ':' :: ' ' :: value) :: Q) ++ dashes :: B := by
            rw [hrs, List.append_assoc, List.cons_append]
          have hlen2 : (P ++ (lowerL key ++ ':' :: ' ' :: value) :: Q).length = j := by
            have h1 : A.length = j := hlen
            rw [hA2] at h1
            simp only [List.length_append, List.length_cons] at h1 ⊢
            omega
          have hj2 : firstIdx (fun l => l = dashes)
              (rest.set i (lowerL key ++ ':' :: ' ' :: value)) = some j := by
            rw [hrs2, firstIdx_spec B hA2d (decide_eq_true rfl), hlen2]
          have htake2 : (rest.set i (lowerL key ++ ':' :: ' ' :: value)).take j =
              P ++ (lowerL key ++ ':' :: ' ' :: value) :: Q := by
            rw [hrs2, ← hlen2, take_len_append]
          have hi2 : firstIdx (fun l => begins (lowerL key ++ [':']) (lowerL l))
              ((rest.set i (lowerL key ++ ':' :: ' ' :: value)).take j) = some i := by
            rw [htake2, firstIdx_spec Q hPp hbkv, hPlen]
          have hss : (rest.set i (lowerL key ++ ':' :: ' ' :: value)).set i
              (lowerL key ++ ':' :: ' ' :: value) =
              rest.set i (lowerL key ++ ':' :: ' ' :: value) := by
            rw [hrs, ← hPlen, set_append_len]
          rw [setFM_eq_found key value hsp hj hi,
            setFM_eq_found key value hsplitR hj2 hi2, hss]
        | none =>
          have hnob : ∀ l ∈ A, begins (lowerL key ++ [':']) (lowerL l) = false := by
            intro l hl
            exact firstIdx_eq_none hi l (by rw [htake]; exact hl)
          rw [setFM_eq_insert key value hsp hj hi, htake, hdrop]
          have hfree3 : ∀ l ∈ dashes ::
              (A ++ (lowerL key ++ ':' :: ' ' :: value) :: dashes :: B), '\n' ∉ l := by
            intro l hl
            rcases List.mem_cons.mp hl with rfl | hl2
            · exact hdnl
            · rcases List.mem_append.mp hl2 with h | h
              · exact hAnl l h
              · rcases List.mem_cons.mp h with rfl | h2
                · exact hkvnl
                · rcases List.mem_cons.mp h2 with rfl | h3
                  · exact hdnl
                  · exact hBnl l h3
          have hsplitR3 : splitNL (joinNL (dashes ::
              (A ++ (lowerL key ++ ':' :: ' ' :: value) :: dashes :: B))) =
              dashes :: (A ++ (lowerL key ++ ':' :: ' ' :: value) :: dashes :: B) :=
            splitNL_joinNL _ (by simp) hfree3
          have hA3d : ∀ a ∈ A ++ [lowerL key ++ ':' :: ' ' :: value],
              decide (a = dashes) = false := by
            intro a ha
            rcases List.mem_append.mp ha with h | h
            · exact decide_eq_false (hAd a h)
            · rw [List.mem_singleton] at h
              subst h
              exact decide_eq_false hkvd
          have hrs3 : A ++ (lowerL key ++ ':' :: ' ' :: value) :: dashes :: B =
              (A ++ [lowerL key ++ ':' :: ' ' :: value]) ++ dashes :: B := by
            rw [List.append_assoc]
            rfl
          have hlen3 : (A ++ [lowerL key ++ ':' :: ' ' :: value]).length = j + 1 := by
            simp [hlen]
          have hj3 : firstIdx (fun l => l = dashes)
              (A ++ (lowerL key ++ ':' :: ' ' :: value) :: dashes :: B) =
              some (j + 1) := by
            rw [hrs3, firstIdx_spec B hA3d (decide_eq_true rfl), hlen3]
          have htake3 : (A ++ (lowerL key ++ ':' :: ' ' :: value) ::
              dashes :: B).take (j + 1) = A ++ [lowerL key ++ ':' :: ' ' :: value] := by
            rw [hrs3, ← hlen3, take_len_append]
          have hi3 : firstIdx (fun l => begins (lowerL key ++ [':']) (lowerL l))
              ((A ++ (lowerL key ++ ':' :: ' ' :: value) ::
                dashes :: B).take (j + 1)) = some j := by
            rw [htake3, firstIdx_spec [] hnob hbkv, hlen]
          have hset3 : (A ++ (lowerL key ++ ':' :: ' ' :: value) ::
              dashes :: B).set j (lowerL key ++ ':' :: ' ' :: value) =
              A ++ (lowerL key ++ ':' :: ' ' :: value) :: dashes :: B := by
            rw [← hlen, set_append_len]
          rw [setFM_eq_found key value hsplitR3 hj3 hi3, hset3]
    · rw [setFM_eq_synth key value hsp (by rw [if_neg hl0])]
      exact hsynth

/-- Witness for the amended C7 on a document whose frontmatter lacks the
key: the key is inserted once and a second application is a no-op. -/
theorem frontmatter_set_idempotent_witness :
    '\n' ∉ (("tag").data) ∧ '\n' ∉ (("x").data) ∧
    setFrontmatterKey (setFrontmatterKey (("---\nTitle: Hi\n---\nbody").data)
        (("tag").data) (("x").data)) (("tag").data) (("x").data) =
      setFrontmatterKey (("---\nTitle: Hi\n---\nbody").data)
        (("tag").data) (("x").data) :=
  ⟨by decide, by decide,
    frontmatter_set_idempotent (("---\nTitle: Hi\n---\nbody").data)
      (("tag").data) (("x").data) (by decide) (by decide)⟩

/-! ### Claim C8: vault-wide link rewrite -/

/-- The wikilink pattern `[[x]]` used by `updateWikilinks`. -/
def wl (x : Str) : Str := '[' :: '[' :: x ++ [']', ']']

/-- The aliased-wikilink pattern `[[x|` used by `updateWikilinks`. -/
def wp (x : Str) : Str := '[' :: '[' :: x ++ ['|']

theorem updateWikilinks_eq (c o n : Str) :
    updateWikilinks c o n =
      replaceAllGo (replaceAllGo c (wl o) (wl n)) (wp o) (wp n) := rfl

/-- Claim-side definition (the specification's reading of the rewrite): a
single left-to-right pass that replaces `p1` by `r1` and `p2` by `r2`
simultaneously, copying every other byte unchanged.  The `Nat` is the
number of already-matched characters still to pass over. -/
def simAux (p1 r1 p2 r2 : Str) : Str → Nat → Str
  | [], _ => []
  | _ :: rest, Nat.succ k => simAux p1 r1 p2 r2 rest k
  | c :: rest, 0 =>
    if begins p1 (c :: rest) then r1 ++ simAux p1 r1 p2 r2 rest (p1.length - 1)
    else if begins p2 (c :: rest) then r2 ++ simAux p1 r1 p2 r2 rest (p2.length - 1)
    else c :: simAux p1 r1 p2 r2 rest 0

/-- Claim-side definition: replace every occurrence of `[[oldName]]` by
`[[newName]]` and of `[[oldName|` by `[[newName|` in one simultaneous
pass, leaving all other bytes (in particular alias suffixes) unchanged. -/
def simRewrite (content oldName newName : Str) : Str :=
  simAux (wl oldName) (wl newName) (wp oldName) (wp newName) content 0

theorem ra_nil_all {p : Str} (hp : p ≠ []) (r : Str) : replaceAllGo [] p r = [] := by
  cases p with
  | nil => exact absurd rfl hp
  | cons d ds => rfl

theorem raAux_skip (d : Char) (ds r : Str) :
    ∀ (s : Str) (k : Nat), raAux d ds r s k = raAux d ds r (s.drop k) 0 := by
  intro s
  induction s with
  | nil => intro k; cases k <;> rfl
  | cons c rest ih =>
    intro k
    cases k with
    | zero => rfl
    | succ k2 =>
      rw [show raAux d ds r (c :: rest) (k2 + 1) = raAux d ds r rest k2 from rfl,
        ih k2]
      rfl

theorem ra_match_all {p : Str} (hp : p ≠ []) (r : Str) {c : Char} {t : Str}
    (hb : begins p (c :: t) = true) :
    replaceAllGo (c :: t) p r = r ++ replaceAllGo (t.drop (p.length - 1)) p r := by
  cases p with
  | nil => exact absurd rfl hp
  | cons d ds =>
    show raAux d ds r (c :: t) 0 = r ++ raAux d ds r (t.drop ((d :: ds).length - 1)) 0
    rw [show raAux d ds r (c :: t) 0 =
      (if begins (d :: ds) (c :: t) then r ++ raAux d ds r t ds.length
       else c :: raAux d ds r t 0) from rfl, if_pos hb]
    rw [show (d :: ds).length - 1 = ds.length from rfl]
    rw [raAux_skip]

theorem ra_miss_all {p : Str} (hp : p ≠ []) (r : Str) {c : Char} {t : Str}
    (hb : ¬ begins p (c :: t) = true) :
    replaceAllGo (c :: t) p r = c :: replaceAllGo t p r := by
  cases p with
  | nil => exact absurd rfl hp
  | cons d ds =>
    show raAux d ds r (c :: t) 0 = c :: raAux d ds r t 0
    rw [show raAux d ds r (c :: t) 0 =
      (if begins (d :: ds) (c :: t) then r ++ raAux d ds r t ds.length
       else c :: raAux d ds r t 0) from rfl, if_neg hb]

theorem ra_head_all {p : Str} (hp : p ≠ []) (r X : Str) :
    replaceAllGo (p ++ X) p r = r ++ replaceAllGo X p r := by
  cases p with
  | nil => exact absurd rfl hp
  | cons d ds =>
    rw [show (d :: ds) ++ X = d :: (ds ++ X) from rfl]
    rw [ra_match_all hp r (show begins (d :: ds) (d :: (ds ++ X)) = true from
      begins_append (d :: ds) X)]
    rw [show (d :: ds).length - 1 = ds.length from rfl, drop_append_self]

theorem ra_copy_all {p : Str} (hp : p ≠ []) (r : Str) :
    ∀ (m : Nat) (s : Str), (∀ j, j < m → ¬ begins p (s.drop j) = true) →
      replaceAllGo s p r = s.take m ++ replaceAllGo (s.drop m) p r := by
  intro m
  induction m with
  | zero => intro s _; rfl
  | succ m2 ih =>
    intro s hj
    cases s with
    | nil =>
      rw [List.take_nil, List.drop_nil]
      rfl
    | cons c t =>
      have h0 : ¬ begins p (c :: t) = true := by
        have := hj 0 (Nat.succ_pos m2)
        simpa using this
      rw [ra_miss_all hp r h0,
        ih t (fun j hjm => by
          have := hj (j + 1) (by omega)
          simpa using this)]
      rfl

theorem simAux_skip (p1 r1 p2 r2 : Str) :
    ∀ (s : Str) (k : Nat),
      simAux p1 r1 p2 r2 s k = simAux p1 r1 p2 r2 (s.drop k) 0 := by
  intro s
  induction s with
  | nil => intro k; cases k <;> rfl
  | cons c rest ih =>
    intro k
    cases k with
    | zero => rfl
    | succ k2 =>
      rw [show simAux p1 r1 p2 r2 (c :: rest) (k2 + 1) =
        simAux p1 r1 p2 r2 rest k2 from rfl, ih k2]
      rfl

theorem sim_match1 {p1 : Str} (hne : p1 ≠ []) (r1 p2 r2 X : Str) :
    simAux p1 r1 p2 r2 (p1 ++ X) 0 = r1 ++ simAux p1 r1 p2 r2 X 0 := by
  cases p1 with
  | nil => exact absurd rfl hne
  | cons d ds =>
    rw [show simAux (d :: ds) r1 p2 r2 ((d :: ds) ++ X) 0 =
      (if begins (d :: ds) ((d :: ds) ++ X) then
        r1 ++ simAux (d :: ds) r1 p2 r2 (ds ++ X) ((d :: ds).length - 1)
       else if begins p2 ((d :: ds) ++ X) then
        r2 ++ simAux (d :: ds) r1 p2 r2 (ds ++ X) (p2.length - 1)
       else d :: simAux (d :: ds) r1 p2 r2 (ds ++ X) 0) from rfl]
    rw [if_pos (begins_append (d :: ds) X)]
    rw [show (d :: ds).length - 1 = ds.length from rfl, simAux_skip,
      drop_append_self]

theorem sim_match2 {p2 : Str} (hne : p2 ≠ []) (p1 r1 r2 X : Str)
    (hno : ¬ begins p1 (p2 ++ X) = true) :
    simAux p1 r1 p2 r2 (p2 ++ X) 0 = r2 ++ simAux p1 r1 p2 r2 X 0 := by
  cases p2 with
  | nil => exact absurd rfl hne
  | cons e es =>
    rw [show simAux p1 r1 (e :: es) r2 ((e :: es) ++ X) 0 =
      (if begins p1 ((e :: es) ++ X) then
        r1 ++ simAux p1 r1 (e :: es) r2 (es ++ X) (p1.length - 1)
       else if begins (e :: es) ((e :: es) ++ X) then
        r2 ++ simAux p1 r1 (e :: es) r2 (es ++ X) ((e :: es).length - 1)
       else e :: simAux p1 r1 (e :: es) r2 (es ++ X) 0) from rfl]
    rw [if_neg hno, if_pos (begins_append (e :: es) X)]
    rw [show (e :: es).length - 1 = es.length from rfl, simAux_skip,
      drop_append_self]

theorem take_append_le {α : Type} :
    ∀ (A B : List α) (j : Nat), j ≤ A.length → (A ++ B).take j = A.take j := by
  intro A
  induction A with
  | nil =>
    intro B j hj
    rw [Nat.le_zero.mp hj]
    rfl
  | cons a t ih =>
    intro B j hj
    cases j with
    | zero => rfl
    | succ j2 =>
      show a :: (t ++ B).take j2 = a :: t.take j2
      rw [ih B j2 (by simpa using hj)]

theorem drop_append_le {α : Type} :
    ∀ (A B : List α) (j : Nat), j ≤ A.length →
      (A ++ B).drop j = A.drop j ++ B := by
  intro A
  induction A with
  | nil =>
    intro B j hj
    rw [Nat.le_zero.mp hj]
    rfl
  | cons a t ih =>
    intro B j hj
    cases j with
    | zero => rfl
    | succ j2 => exact ih B j2 (by simpa using hj)

theorem drop_lt_cons {α : Type} :
    ∀ (l : List α) (k : Nat), k < l.length →
      ∃ y, l.drop k = y :: l.drop (k + 1) := by
  intro l
  induction l with
  | nil => intro k hk; simp at hk
  | cons a t ih =>
    intro k hk
    cases k with
    | zero => exact ⟨a, rfl⟩
    | succ k2 => exact ih k2 (by simpa using hk)

theorem cancel_append_left {α : Type} :
    ∀ (a b c : List α), a ++ b = a ++ c → b = c := by
  intro a
  induction a with
  | nil => intro b c h; exact h
  | cons x t ih =>
    intro b c h
    exact ih b c (List.cons.inj h).2

theorem mem_wl {c : Char} {x : Str} (h : c ∈ wl x) : c = '[' ∨ c ∈ x ∨ c = ']' := by
  simp [wl] at h
  tauto

theorem mem_wp {c : Char} {x : Str} (h : c ∈ wp x) : c = '[' ∨ c ∈ x ∨ c = '|' := by
  simp [wp] at h
  tauto

theorem pipe_not_mem_wl {n : Str} (h3 : '|' ∉ n) : '|' ∉ wl n := by
  intro hm
  rcases mem_wl hm with h | h | h
  · exact absurd h (by decide)
  · exact h3 h
  · exact absurd h (by decide)

theorem rb_not_mem_wp {o : Str} (h2 : ']' ∉ o) : ']' ∉ wp o := by
  intro hm
  rcases mem_wp hm with h | h | h
  · exact absurd h (by decide)
  · exact h2 h
  · exact absurd h (by decide)

theorem wl_drop (n : Str) {j : Nat} (hj : j < (wl n).length) :
    ∃ u, (wl n).drop j = u ++ [']'] := by
  refine ⟨(('[' :: '[' :: n) ++ [']']).drop j, ?_⟩
  have he : wl n = (('[' :: '[' :: n) ++ [']']) ++ [']'] := by
    simp [wl]
  have hlen : (wl n).length = n.length + 4 := by simp [wl]
  rw [he, drop_append_le _ _ j (by simp; omega)]

theorem wp_drop (o : Str) {k : Nat} (hk : k < (wp o).length) :
    ∃ u, (wp o).drop k = u ++ ['|'] := by
  refine ⟨('[' :: '[' :: o).drop k, ?_⟩
  have hlen : (wp o).length = o.length + 3 := by simp [wp]
  exact drop_append_le _ _ k (by simp; omega)

/-- No occurrence of `[[o|` starts strictly inside a freshly written
`[[n]]` in front of any continuation: fully inside would put `|` into
`[[n]]`, and a spanning match would pull the closing `]` into `[[o|`. -/
theorem no_wp_in_wl (o n : Str) (h2 : ']' ∉ o) (h3 : '|' ∉ n) (X : Str) :
    ∀ j, j < (wl n).length → ¬ begins (wp o) ((wl n ++ X).drop j) = true := by
  intro j hj hb
  rw [drop_append_le _ _ j (le_of_lt hj)] at hb
  rcases le_or_lt (wp o).length ((wl n).drop j).length with hle | hlt
  · have htk : ((wl n).drop j ++ X).take (wp o).length = wp o := begins_eq_take hb
    rw [take_append_le _ _ _ hle] at htk
    have hpipe : '|' ∈ ((wl n).drop j).take (wp o).length := by
      rw [htk]
      simp [wp]
    have : '|' ∈ wl n := List.drop_subset j (wl n) (List.take_subset _ _ hpipe)
    exact pipe_not_mem_wl h3 this
  · obtain ⟨t, ht⟩ := begins_iff.mp hb
    have htk := congrArg (List.take ((wl n).drop j).length) ht
    rw [take_append_le _ _ _ (le_of_lt hlt), take_len_append] at htk
    obtain ⟨u, hu⟩ := wl_drop n hj
    have hrb : ']' ∈ (wl n).drop j := by
      rw [hu]
      simp
    rw [← htk] at hrb
    exact rb_not_mem_wp h2 (List.take_subset _ _ hrb)

/-- No occurrence of `[[o]]` starts inside the `[[o|` span of the text:
position 0 would force `] = |`, and every later position inside the span
carries a character other than `[`. -/
theorem no_wl_in_wp (o : Str) (h1 : '[' ∉ o) (X : Str) :
    ∀ j, j < (wp o).length → ¬ begins (wl o) ((wp o ++ X).drop j) = true := by
  have hform : wp o ++ X = '[' :: '[' :: ((o ++ ['|']) ++ X) := by
    simp [wp]
  intro j hj hb
  match j with
  | 0 =>
    obtain ⟨t, ht⟩ := begins_iff.mp hb
    rw [List.drop_zero] at ht
    have ht2 : ('[' :: '[' :: o) ++ ']' :: ']' :: t =
        ('[' :: '[' :: o) ++ '|' :: X := by
      rw [show ('[' :: '[' :: o) ++ ']' :: ']' :: t = wl o ++ t from by
        simp [wl], ht]
      simp [wp]
    have := cancel_append_left _ _ _ ht2
    exact absurd (List.cons.inj this).1 (by decide)
  | 1 =>
    rw [hform] at hb
    rw [show ('[' :: '[' :: ((o ++ ['|']) ++ X)).drop 1 =
      '[' :: ((o ++ ['|']) ++ X) from rfl] at hb
    rw [show wl o = '[' :: '[' :: (o ++ [']', ']']) from by simp [wl]] at hb
    simp only [begins, Bool.and_eq_true, decide_eq_true_eq] at hb
    have hb2 := hb.2
    cases o with
    | nil => simp [begins] at hb2
    | cons c o2 =>
      rw [show ((c :: o2 ++ ['|']) ++ X) = c :: ((o2 ++ ['|']) ++ X) from by
        simp] at hb2
      simp only [begins, Bool.and_eq_true, decide_eq_true_eq] at hb2
      exact h1 (hb2.1 ▸ List.mem_cons_self c o2)
  | (i + 2) =>
    rw [hform] at hb
    rw [show ('[' :: '[' :: ((o ++ ['|']) ++ X)).drop (i + 2) =
      ((o ++ ['|']) ++ X).drop i from rfl] at hb
    have hi : i < (o ++ ['|']).length := by
      have : (wp o).length = o.length + 3 := by simp [wp]
      simp only [List.length_append, List.length_cons, List.length_nil]
      omega
    rw [drop_append_le _ _ i (le_of_lt hi)] at hb
    obtain ⟨y, hy⟩ := drop_lt_cons (o ++ ['|']) i hi
    rw [hy] at hb
    rw [show wl o = '[' :: '[' :: (o ++ [']', ']']) from by simp [wl]] at hb
    rw [show (y :: (o ++ ['|']).drop (i + 1)) ++ X =
      y :: ((o ++ ['|']).drop (i + 1) ++ X) from rfl] at hb
    simp only [begins, Bool.and_eq_true, decide_eq_true_eq] at hb
    have hy2 : y ∈ o ++ ['|'] := by
      have : y ∈ (o ++ ['|']).drop i := by rw [hy]; exact List.mem_cons_self _ _
      exact List.drop_subset _ _ this
    rcases List.mem_append.mp hy2 with h | h
    · exact h1 (hb.1 ▸ h)
    · rw [List.mem_singleton] at h
      rw [h] at hb
      exact absurd hb.1 (by decide)

theorem sim_miss (p1 r1 p2 r2 : Str) {c : Char} {t : Str}
    (hn1 : ¬ begins p1 (c :: t) = true) (hn2 : ¬ begins p2 (c :: t) = true) :
    simAux p1 r1 p2 r2 (c :: t) 0 = c :: simAux p1 r1 p2 r2 t 0 := by
  rw [show simAux p1 r1 p2 r2 (c :: t) 0 =
    (if begins p1 (c :: t) then r1 ++ simAux p1 r1 p2 r2 t (p1.length - 1)
     else if begins p2 (c :: t) then r2 ++ simAux p1 r1 p2 r2 t (p2.length - 1)
     else c :: simAux p1 r1 p2 r2 t 0) from rfl, if_neg hn1, if_neg hn2]

/-- The first `ReplaceAll` pass never manufactures a new start of `[[o|`:
if a nonempty proper suffix of `[[o|` prefixes the rewritten text, it
already prefixed the original text. -/
theorem ra1_no_create (o n : Str) (h2 : ']' ∉ o) (h3 : '|' ∉ n) :
    ∀ (t : Str), ∀ (k : Nat), 1 ≤ k → k < (wp o).length →
      begins ((wp o).drop k) (replaceAllGo t (wl o) (wl n)) = true →
      begins ((wp o).drop k) t = true := by
  have hwl_ne : wl o ≠ [] := by simp [wl]
  intro t
  induction t with
  | nil =>
    intro k hk1 hk2 hb
    rw [ra_nil_all hwl_ne] at hb
    obtain ⟨y, hy⟩ := drop_lt_cons (wp o) k hk2
    rw [hy] at hb
    simp [begins] at hb
  | cons c t2 ih =>
    intro k hk1 hk2 hb
    by_cases hm : begins (wl o) (c :: t2) = true
    · rw [ra_match_all hwl_ne (wl n) hm] at hb
      exfalso
      rcases le_or_lt ((wp o).drop k).length (wl n).length with hle | hlt
      · have htk := begins_eq_take hb
        rw [take_append_le _ _ _ hle] at htk
        obtain ⟨u, hu⟩ := wp_drop o hk2
        have hpipe : '|' ∈ (wp o).drop k := by
          rw [hu]
          simp
        rw [← htk] at hpipe
        exact pipe_not_mem_wl h3 (List.take_subset _ _ hpipe)
      · obtain ⟨tt, htt⟩ := begins_iff.mp hb
        have htk := congrArg (List.take (wl n).length) htt
        rw [take_append_le _ _ _ (le_of_lt hlt), take_len_append] at htk
        have hrb : ']' ∈ ((wp o).drop k).take (wl n).length := by
          rw [htk]
          simp [wl]
        have hmem : ']' ∈ wp o :=
          List.drop_subset k (wp o) (List.take_subset _ _ hrb)
        exact rb_not_mem_wp h2 hmem
    · rw [ra_miss_all hwl_ne (wl n) hm] at hb
      obtain ⟨y, hy⟩ := drop_lt_cons (wp o) k hk2
      rw [hy] at hb
      simp only [begins, Bool.and_eq_true, decide_eq_true_eq] at hb
      rw [hy]
      simp only [begins, Bool.and_eq_true, decide_eq_true_eq]
      refine ⟨hb.1, ?_⟩
      rcases le_or_lt (wp o).length (k + 1) with hge | hlt2
      · rw [List.drop_eq_nil_of_le hge]
        rfl
      · exact ih (k + 1) (by omega) hlt2 hb.2

/-- Under the naming discipline (`[` and `]` absent from the old name,
`|` absent from the new name) the two sequential `ReplaceAll` passes
compute exactly the simultaneous one-pass rewrite. -/
theorem updateWikilinks_eq_sim (o n : Str)
    (h1 : '[' ∉ o) (h2 : ']' ∉ o) (h3 : '|' ∉ n) :
    ∀ s, updateWikilinks s o n = simRewrite s o n := by
  have hwl_ne : wl o ≠ [] := by simp [wl]
  have hwp_ne : wp o ≠ [] := by simp [wp]
  have hwl_len : (wl o).length = o.length + 4 := by simp [wl]
  have hwp_len : (wp o).length = o.length + 3 := by simp [wp]
  have key : ∀ m, ∀ s : Str, s.length ≤ m →
      replaceAllGo (replaceAllGo s (wl o) (wl n)) (wp o) (wp n) =
        simAux (wl o) (wl n) (wp o) (wp n) s 0 := by
    intro m
    induction m with
    | zero =>
      intro s hs
      have hnil : s = [] := List.length_eq_zero.mp (by omega)
      subst hnil
      rw [ra_nil_all hwl_ne, ra_nil_all hwp_ne]
      rfl
    | succ m ih =>
      intro s hs
      cases s with
      | nil =>
        rw [ra_nil_all hwl_ne, ra_nil_all hwp_ne]
        rfl
      | cons c t =>
        by_cases ha : begins (wl o) (c :: t) = true
        · obtain ⟨X, hX⟩ := begins_iff.mp ha
          have hlenX : X.length ≤ m := by
            have hl := congrArg List.length hX
            simp only [List.length_append, List.length_cons] at hl
            simp only [List.length_cons] at hs
            omega
          rw [← hX]
          rw [ra_head_all hwl_ne (wl n) X]
          rw [ra_copy_all hwp_ne (wp n) (wl n).length
            (wl n ++ replaceAllGo X (wl o) (wl n))
            (no_wp_in_wl o n h2 h3 (replaceAllGo X (wl o) (wl n)))]
          rw [take_len_append, drop_len_append]
          rw [ih X hlenX]
          rw [sim_match1 hwl_ne (wl n) (wp o) (wp n) X]
        · by_cases hbm : begins (wp o) (c :: t) = true
          · obtain ⟨X, hX⟩ := begins_iff.mp hbm
            have hlenX : X.length ≤ m := by
              have hl := congrArg List.length hX
              simp only [List.length_append, List.length_cons] at hl
              simp only [List.length_cons] at hs
              omega
            rw [← hX]
            rw [ra_copy_all hwl_ne (wl n) (wp o).length (wp o ++ X)
              (no_wl_in_wp o h1 X)]
            rw [take_len_append, drop_len_append]
            rw [ra_head_all hwp_ne (wp n) (replaceAllGo X (wl o) (wl n))]
            rw [ih X hlenX]
            rw [sim_match2 hwp_ne (wl o) (wl n) (wp n) X
              (no_wl_in_wp o h1 X 0 (by omega))]
          · have hano2 : ¬ begins (wp o)
                (c :: replaceAllGo t (wl o) (wl n)) = true := by
              intro hcon
              have hwp_eq : wp o = '[' :: (('[' :: o) ++ ['|']) := rfl
              rw [hwp_eq] at hcon
              simp only [begins, Bool.and_eq_true, decide_eq_true_eq] at hcon
              have hk2 : (1 : Nat) < (wp o).length := by omega
              have hdrop1 : (wp o).drop 1 = ('[' :: o) ++ ['|'] := rfl
              have ht2 : begins ((wp o).drop 1) t = true :=
                ra1_no_create o n h2 h3 t 1 (le_refl 1) hk2
                  (by rw [hdrop1]; exact hcon.2)
              apply hbm
              rw [hwp_eq]
              simp only [begins, Bool.and_eq_true, decide_eq_true_eq]
              refine ⟨hcon.1, ?_⟩
              rw [← hdrop1]
              exact ht2
            rw [ra_miss_all hwl_ne (wl n) ha, ra_miss_all hwp_ne (wp n) hano2]
            rw [ih t (by simpa using hs)]
            rw [sim_miss (wl o) (wl n) (wp o) (wp n) ha hbm]
  intro s
  rw [updateWikilinks_eq]
  rw [key s.length s (le_refl _)]
  rfl

/-- `updateLinksInVault` transforms every `.md` document with
`updateWikilinks` and records exactly the paths whose content changed. -/
theorem updateLinksInVault_spec (o n : Str) :
    ∀ fs : FS,
      (updateLinksInVault fs o n).1 =
        fs.map (fun e => if pathIsMd e.1 then
          (e.1, updateWikilinks e.2 o n) else e) ∧
      (updateLinksInVault fs o n).2 =
        (fs.filter (fun e => pathIsMd e.1 &&
          decide (updateWikilinks e.2 o n ≠ e.2))).map Prod.fst := by
  intro fs
  induction fs with
  | nil => exact ⟨rfl, rfl⟩
  | cons e t ih =>
    obtain ⟨p, c⟩ := e
    rcases ih with ⟨ih1, ih2⟩
    have hunf : updateLinksInVault ((p, c) :: t) o n =
        (if pathIsMd p then
          (if updateWikilinks c o n ≠ c then
            ((p, updateWikilinks c o n) :: (updateLinksInVault t o n).1,
              p :: (updateLinksInVault t o n).2)
           else ((p, c) :: (updateLinksInVault t o n).1,
              (updateLinksInVault t o n).2))
         else ((p, c) :: (updateLinksInVault t o n).1,
            (updateLinksInVault t o n).2)) := rfl
    by_cases hmd : pathIsMd p = true
    · by_cases hch : updateWikilinks c o n ≠ c
      · refine ⟨?_, ?_⟩
        · rw [hunf, if_pos hmd, if_pos hch, List.map_cons, ih1]
          dsimp only
          rw [if_pos hmd]
        · rw [hunf, if_pos hmd, if_pos hch]
          dsimp only
          rw [List.filter_cons_of_pos (by
            show (pathIsMd p && decide (updateWikilinks c o n ≠ c)) = true
            rw [hmd, decide_eq_true hch]
            rfl), List.map_cons, ih2]
      · have hceq : updateWikilinks c o n = c := not_not.mp hch
        refine ⟨?_, ?_⟩
        · rw [hunf, if_pos hmd, if_neg hch, List.map_cons, ih1]
          dsimp only
          rw [if_pos hmd, hceq]
        · rw [hunf, if_pos hmd, if_neg hch]
          dsimp only
          rw [List.filter_cons_of_neg (by
            show ¬ (pathIsMd p && decide (updateWikilinks c o n ≠ c)) = true
            rw [hmd, decide_eq_false hch]
            simp), ih2]
    · refine ⟨?_, ?_⟩
      · rw [hunf, if_neg hmd, List.map_cons, ih1]
        dsimp only
        rw [if_neg hmd]
      · rw [hunf, if_neg hmd]
        dsimp only
        rw [List.filter_cons_of_neg (by
          show ¬ (pathIsMd p && decide (updateWikilinks c o n ≠ c)) = true
          rw [Bool.eq_false_iff.mpr hmd]
          simp), ih2]

theorem idxAux_none_ra {d : Char} {ds : Str} (r : Str) :
    ∀ {s : Str}, idxAux d ds s = none → raAux d ds r s 0 = s := by
  intro s
  induction s with
  | nil => intro _; rfl
  | cons c t ih =>
    intro h
    rw [show idxAux d ds (c :: t) =
      (if begins (d :: ds) (c :: t) then some 0
       else (idxAux d ds t).map (· + 1)) from rfl] at h
    by_cases hb : begins (d :: ds) (c :: t) = true
    · rw [if_pos hb] at h
      cases h
    · rw [if_neg hb] at h
      have ht : idxAux d ds t = none := by
        cases hr : idxAux d ds t with
        | none => rfl
        | some j => rw [hr] at h; simp at h
      rw [show raAux d ds r (c :: t) 0 =
        (if begins (d :: ds) (c :: t) then r ++ raAux d ds r t ds.length
         else c :: raAux d ds r t 0) from rfl, if_neg hb, ih ht]

theorem replaceAll_id {s p : Str} (hp : p ≠ []) (r : Str)
    (h : containsGo s p = false) : replaceAllGo s p r = s := by
  cases p with
  | nil => exact absurd rfl hp
  | cons d ds =>
    have hidx : idxAux d ds s = none := by
      simp only [containsGo, indexOfGo] at h
      cases hr : idxAux d ds s with
      | none => rfl
      | some j => rw [hr] at h; simp at h
    exact idxAux_none_ra r hidx

/-- C8 counterexample: with `newName = "a|b"` (containing `|`) the two
sequential `ReplaceAll` passes feed each other: `[[a]]` first becomes
`[[a|b]]`, and the second pass then rewrites the `[[a|` it just created,
yielding `[[a|b|b]]` rather than the simultaneous replacement `[[a|b]]`,
so bytes outside the matched occurrences are not left unchanged. -/
theorem wikilink_rewrite_counterexample :
    updateWikilinks (("[[a]]").data) ['a'] (("a|b").data) ≠
      simRewrite (("[[a]]").data) ['a'] (("a|b").data) := by
  decide

/-- **C8** (amended).  For note names under the wiki naming discipline —
`[` and `]` do not occur in `oldName` and `|` does not occur in
`newName` — `updateWikilinks` equals the simultaneous one-pass literal
replacement of `[[oldName]]` by `[[newName]]` and `[[oldName|` by
`[[newName|` that copies all other bytes (alias suffixes included)
unchanged; the vault-wide pass maps every `.md` document through the
rewrite and writes back exactly those whose content differs; and a
document containing neither pattern is returned byte-identical. -/
theorem wikilink_rewrite_frame (oldName newName : Str)
    (h1 : '[' ∉ oldName) (h2 : ']' ∉ oldName) (h3 : '|' ∉ newName) :
    (∀ content, updateWikilinks content oldName newName =
      simRewrite content oldName newName) ∧
    (∀ fs : FS,
      (updateLinksInVault fs oldName newName).1 =
        fs.map (fun e => if pathIsMd e.1 then
          (e.1, updateWikilinks e.2 oldName newName) else e) ∧
      (updateLinksInVault fs oldName newName).2 =
        (fs.filter (fun e => pathIsMd e.1 &&
          decide (updateWikilinks e.2 oldName newName ≠ e.2))).map Prod.fst) ∧
    (∀ content, containsGo content (wl oldName) = false →
      containsGo content (wp oldName) = false →
      updateWikilinks content oldName newName = content) := by
  refine ⟨updateWikilinks_eq_sim oldName newName h1 h2 h3,
    updateLinksInVault_spec oldName newName, ?_⟩
  intro content hc1 hc2
  rw [updateWikilinks_eq,
    replaceAll_id (show wl oldName ≠ [] from by simp [wl]) (wl newName) hc1,
    replaceAll_id (show wp oldName ≠ [] from by simp [wp]) (wp newName) hc2]

/-- Witness for the amended C8 at `oldName = "a"`, `newName = "b"`: a
document with a plain and an aliased link, a one-file vault, and a
pattern-free document. -/
theorem wikilink_rewrite_frame_witness :
    updateWikilinks (("x [[a]] y [[a|keep]] z").data) ['a'] ['b'] =
      simRewrite (("x [[a]] y [[a|keep]] z").data) ['a'] ['b'] ∧
    (updateLinksInVault [([("n.md").data], ("[[a]]").data)] ['a'] ['b']).1 =
      ([([("n.md").data], ("[[a]]").data)] : FS).map (fun e => if pathIsMd e.1 then
        (e.1, updateWikilinks e.2 ['a'] ['b']) else e) ∧
    (updateLinksInVault [([("n.md").data], ("[[a]]").data)] ['a'] ['b']).2 =
      (([([("n.md").data], ("[[a]]").data)] : FS).filter (fun e => pathIsMd e.1 &&
        decide (updateWikilinks e.2 ['a'] ['b'] ≠ e.2))).map Prod.fst ∧
    updateWikilinks (("plain [a] text").data) ['a'] ['b'] =
      ("plain [a] text").data := by
  have h := wikilink_rewrite_frame ['a'] ['b'] (by decide) (by decide) (by decide)
  exact ⟨h.1 _, (h.2.1 _).1, (h.2.1 _).2, h.2.2 _ (by decide) (by decide)⟩

/-! ### Claim C2: batch edit order-independence -/

/-- The apply phase of `BatchEditNoteHandler` on a located batch: sort
descending by offset and splice each replacement
(`result[:offset] + NewText + result[offset+len(OldText):]`). -/
def batchApplyGo (content : Str) (located : List LocEdit) : Str :=
  (List.insertionSort (fun a b : LocEdit => b.off ≤ a.off) located).foldl splice content

/-- Left-to-right application of located edits at their pristine-document
offsets (the reference form of the batch result). -/
def applyAbs (D : Str) : List LocEdit → Str
  | [] => D
  | le :: rest =>
    D.take le.off ++ le.new ++ (applyAbs D rest).drop (le.off + le.old.length)

/-- Offset rebasing of a later edit after an earlier edit `x` has been
spliced in: the old and new texts are kept, the offset moves by the
length difference of `x`. -/
def shiftE (x e : LocEdit) : LocEdit :=
  ⟨⟨e.old, e.new⟩, e.off + x.new.length - x.old.length⟩

/-- Every edit of the sequence finds its `old_text` exactly once in the
document as it stands when the edit is applied (the single-edit engine's
own success condition, step by step). -/
def stepsOK (D : Str) : List EditEntry → Bool
  | [] => true
  | e :: rest =>
    decide (countPos D e.old = 1) && stepsOK (replace1Go D e.old e.new) rest

theorem take_len_add (A B : Str) (j : Nat) :
    (A ++ B).take (A.length + j) = A ++ B.take j := by
  induction A with
  | nil => simp
  | cons a t ih =>
    rw [show ((a :: t : Str) ++ B) = a :: (t ++ B) from rfl,
      show (a :: t : Str).length + j = (t.length + j) + 1 from by
        simp only [List.length_cons]
        omega]
    show a :: (t ++ B).take (t.length + j) = a :: (t ++ B.take j)
    rw [ih]

theorem take_full {α : Type} :
    ∀ (l : List α) (n : Nat), l.length ≤ n → l.take n = l := by
  intro l
  induction l with
  | nil => intro n _; simp
  | cons a t ih =>
    intro n hn
    cases n with
    | zero => simp at hn
    | succ n2 =>
      show a :: t.take n2 = a :: t
      rw [ih n2 (by simpa using hn)]

theorem begins_append_right {p u : Str} (v : Str) (h : begins p u = true) :
    begins p (u ++ v) = true := by
  obtain ⟨t, rfl⟩ := begins_iff.mp h
  rw [List.append_assoc]
  exact begins_append _ _

theorem begins_take {p s : Str} {k : Nat} (h : begins p s = true)
    (hk : p.length ≤ k) : begins p (s.take k) = true := by
  obtain ⟨t, rfl⟩ := begins_iff.mp h
  rw [List.take_append_eq_append_take, take_full p k hk]
  exact begins_append _ _

/-- Edits whose offsets all lie at or beyond `m` do not disturb the first
`m` characters. -/
theorem applyAbs_take (D : Str) :
    ∀ (L : List LocEdit) (m : Nat), m ≤ D.length → (∀ e ∈ L, m ≤ e.off) →
      (applyAbs D L).take m = D.take m := by
  intro L
  induction L with
  | nil => intro m _ _; rfl
  | cons le rest ih =>
    intro m hm hoff
    have h1 : m ≤ le.off := hoff le (List.mem_cons_self _ _)
    show (D.take le.off ++ le.new ++
      (applyAbs D rest).drop (le.off + le.old.length)).take m = D.take m
    rw [List.append_assoc,
      take_append_le _ _ m (by rw [List.length_take]; omega),
      List.take_take, Nat.min_eq_left h1]

theorem orderedInsert_append (a : LocEdit) :
    ∀ l : List LocEdit, (∀ x ∈ l, ¬ x.off ≤ a.off) →
      List.orderedInsert (fun a b : LocEdit => b.off ≤ a.off) a l = l ++ [a] := by
  intro l
  induction l with
  | nil => intro _; rfl
  | cons x t ih =>
    intro h
    simp only [List.orderedInsert]
    rw [if_neg (h x (List.mem_cons_self _ _)),
      ih (fun y hy => h y (List.mem_cons_of_mem _ hy))]
    rfl

/-- On an ascending non-overlapping batch the handler's descending sort
is exactly list reversal. -/
theorem sortDesc_eq_reverse :
    ∀ L : List LocEdit, List.Pairwise locSep L → (∀ e ∈ L, e.old ≠ []) →
      List.insertionSort (fun a b : LocEdit => b.off ≤ a.off) L = L.reverse := by
  intro L
  induction L with
  | nil => intro _ _; rfl
  | cons le rest ih =>
    intro hp hne
    obtain ⟨hhead, htail⟩ := List.pairwise_cons.mp hp
    simp only [List.insertionSort]
    rw [ih htail (fun e he => hne e (List.mem_cons_of_mem _ he))]
    rw [orderedInsert_append le rest.reverse (by
      intro x hx
      rw [List.mem_reverse] at hx
      have hsep := hhead x hx
      have hlen : 1 ≤ le.old.length :=
        List.length_pos.mpr (hne le (List.mem_cons_self _ _))
      unfold locSep at hsep
      omega)]
    rw [List.reverse_cons]

/-- The handler's sort-descending-and-splice equals the left-to-right
absolute-offset application. -/
theorem batchApplyGo_eq_applyAbs (D : Str) :
    ∀ L : List LocEdit, List.Pairwise locSep L → (∀ e ∈ L, e.old ≠ []) →
      (∀ e ∈ L, matchAt D e.off e.old) →
      batchApplyGo D L = applyAbs D L := by
  intro L
  induction L with
  | nil => intro _ _ _; rfl
  | cons le rest ih =>
    intro hp hne hmat
    obtain ⟨hhead, htail⟩ := List.pairwise_cons.mp hp
    have hnetl : ∀ e ∈ rest, e.old ≠ [] :=
      fun e he => hne e (List.mem_cons_of_mem _ he)
    have hmtl : ∀ e ∈ rest, matchAt D e.off e.old :=
      fun e he => hmat e (List.mem_cons_of_mem _ he)
    have hrest : List.foldl splice D rest.reverse = applyAbs D rest := by
      have h0 := ih htail hnetl hmtl
      unfold batchApplyGo at h0
      rw [sortDesc_eq_reverse rest htail hnetl] at h0
      exact h0
    unfold batchApplyGo
    rw [sortDesc_eq_reverse _ hp hne, List.reverse_cons, List.foldl_append]
    rw [show List.foldl splice (List.foldl splice D rest.reverse) [le] =
      splice (List.foldl splice D rest.reverse) le from rfl]
    rw [hrest]
    show (applyAbs D rest).take le.off ++ le.new ++
      (applyAbs D rest).drop (le.off + le.old.length) =
      D.take le.off ++ le.new ++ (applyAbs D rest).drop (le.off + le.old.length)
    rw [applyAbs_take D rest le.off
      (by
        have := matchAt_bound (hne le (List.mem_cons_self _ _))
          (hmat le (List.mem_cons_self _ _))
        omega)
      (fun e he => by
        have hsep := hhead e he
        unfold locSep at hsep
        omega)]

/-- When the `old_text` occurs exactly once and that occurrence sits at
the recorded offset, the single-edit engine's replacement is exactly the
batch splice at that offset. -/
theorem replace1Go_splice {D : Str} {le : LocEdit}
    (hne : le.old ≠ []) (hcnt : countPos D le.old = 1)
    (hmat : matchAt D le.off le.old) :
    replace1Go D le.old le.new = splice D le := by
  obtain ⟨a, hma, hun⟩ := countPos_one hne hcnt
  have hoff : le.off = a := hun le.off hmat
  obtain ⟨A, B, hAB, hAlen, _⟩ := (matchAt_iff hne).mp hmat
  have h1 : replace1Go D le.old le.new = A ++ le.new ++ B :=
    replace1Go_of_unique hne hAB (fun j hj => by
      have h2 := hun j hj
      omega)
  rw [h1]
  show A ++ le.new ++ B =
    D.take le.off ++ le.new ++ D.drop (le.off + le.old.length)
  have hA : D.take le.off = A := by
    rw [← hAB, ← hAlen, List.append_assoc]
    exact take_len_append A (le.old ++ B)
  have hB : D.drop (le.off + le.old.length) = B := by
    rw [← hAB, ← hAlen, List.append_assoc,
      drop_append_len A (le.old ++ B) le.old.length]
    exact drop_append_self le.old B
  rw [hA, hB]

theorem drop_take_comm {α : Type} :
    ∀ (l : List α) (n m : Nat), (l.take n).drop m = (l.drop m).take (n - m) := by
  intro l
  induction l with
  | nil => intro n m; simp
  | cons a t ih =>
    intro n m
    cases n with
    | zero => simp
    | succ n2 =>
      cases m with
      | zero => rfl
      | succ m2 =>
        rw [Nat.succ_sub_succ]
        exact ih n2 m2

/-- A match strictly left of the spliced region survives the splice. -/
theorem matchAt_splice_left {D : Str} {x : LocEdit} {i : Nat} {sub : Str}
    (hxoff : x.off ≤ D.length) (hm : matchAt D i sub)
    (hbound : i + sub.length ≤ x.off) : matchAt (splice D x) i sub := by
  show begins sub ((splice D x).drop i) = true
  have hsp : splice D x =
      D.take x.off ++ (x.new ++ D.drop (x.off + x.old.length)) := by
    show (D.take x.off ++ x.new) ++ D.drop (x.off + x.old.length) = _
    rw [List.append_assoc]
  rw [hsp, drop_append_le _ _ i (by rw [List.length_take]; omega)]
  apply begins_append_right
  rw [drop_take_comm]
  exact begins_take hm (by omega)

/-- A match at or beyond the end of the spliced region survives the
splice at the rebased offset. -/
theorem matchAt_splice_right {D : Str} {x b : LocEdit}
    (hxb : x.off + x.old.length ≤ D.length)
    (hboff : x.off + x.old.length ≤ b.off)
    (hm : matchAt D b.off b.old) :
    matchAt (splice D x) (b.off + x.new.length - x.old.length) b.old := by
  show begins b.old
    ((splice D x).drop (b.off + x.new.length - x.old.length)) = true
  have hlenP : (D.take x.off ++ x.new).length = x.off + x.new.length := by
    rw [List.length_append, List.length_take]
    omega
  rw [show splice D x =
    (D.take x.off ++ x.new) ++ D.drop (x.off + x.old.length) from rfl]
  rw [show b.off + x.new.length - x.old.length =
    (D.take x.off ++ x.new).length + (b.off - x.off - x.old.length) from by
      rw [hlenP]; omega]
  rw [drop_append_len]
  rw [show (D.drop (x.off + x.old.length)).drop (b.off - x.off - x.old.length) =
    D.drop b.off from by
      rw [List.drop_drop]
      congr 1
      omega]
  exact hm

/-- Splicing `x` and then applying later (shift-rebased) edits equals
prefix, replacement, and the later edits' result past the old region. -/
theorem applyAbs_splice_shift (D : Str) (x : LocEdit)
    (hxb : x.off + x.old.length ≤ D.length) :
    ∀ L2 : List LocEdit,
      (∀ b ∈ L2, x.off + x.old.length ≤ b.off ∧ b.off ≤ D.length) →
      applyAbs (splice D x) (L2.map (shiftE x)) =
        D.take x.off ++ x.new ++ (applyAbs D L2).drop (x.off + x.old.length) := by
  intro L2
  induction L2 with
  | nil =>
    intro _
    show splice D x = D.take x.off ++ x.new ++ D.drop (x.off + x.old.length)
    rfl
  | cons b L2' ih =>
    intro hb
    obtain ⟨hb1, hb2⟩ := hb b (List.mem_cons_self _ _)
    have hbs : ∀ e ∈ L2', x.off + x.old.length ≤ e.off ∧ e.off ≤ D.length :=
      fun e he => hb e (List.mem_cons_of_mem _ he)
    have hlenP : (D.take x.off ++ x.new).length = x.off + x.new.length := by
      rw [List.length_append, List.length_take]
      omega
    show (splice D x).take (b.off + x.new.length - x.old.length) ++ b.new ++
        (applyAbs (splice D x) (L2'.map (shiftE x))).drop
          ((b.off + x.new.length - x.old.length) + b.old.length) =
      D.take x.off ++ x.new ++ (applyAbs D (b :: L2')).drop (x.off + x.old.length)
    have htake : (splice D x).take (b.off + x.new.length - x.old.length) =
        (D.take x.off ++ x.new) ++
          (D.drop (x.off + x.old.length)).take (b.off - x.off - x.old.length) := by
      rw [show splice D x = (D.take x.off ++ x.new) ++
        D.drop (x.off + x.old.length) from rfl]
      rw [show b.off + x.new.length - x.old.length =
        (D.take x.off ++ x.new).length + (b.off - x.off - x.old.length) from by
          rw [hlenP]; omega]
      exact take_len_add _ _ _
    have hdrop : (applyAbs (splice D x) (L2'.map (shiftE x))).drop
        ((b.off + x.new.length - x.old.length) + b.old.length) =
        (applyAbs D L2').drop (b.off + b.old.length) := by
      rw [ih hbs]
      rw [show D.take x.off ++ x.new ++
        (applyAbs D L2').drop (x.off + x.old.length) =
        (D.take x.off ++ x.new) ++
          (applyAbs D L2').drop (x.off + x.old.length) from rfl]
      rw [show (b.off + x.new.length - x.old.length) + b.old.length =
        (D.take x.off ++ x.new).length +
          (b.off - x.off - x.old.length + b.old.length) from by
            rw [hlenP]; omega]
      rw [drop_append_len, List.drop_drop]
      congr 1
      omega
    have hRHS : (applyAbs D (b :: L2')).drop (x.off + x.old.length) =
        (D.take b.off).drop (x.off + x.old.length) ++
          (b.new ++ (applyAbs D L2').drop (b.off + b.old.length)) := by
      rw [show applyAbs D (b :: L2') = D.take b.off ++
        (b.new ++ (applyAbs D L2').drop (b.off + b.old.length)) from by
          show (D.take b.off ++ b.new) ++
            (applyAbs D L2').drop (b.off + b.old.length) = _
          rw [List.append_assoc]]
      rw [drop_append_le _ _ _ (by rw [List.length_take]; omega)]
    rw [htake, hdrop, hRHS]
    rw [show (D.drop (x.off + x.old.length)).take (b.off - x.off - x.old.length) =
      (D.take b.off).drop (x.off + x.old.length) from by
        rw [drop_take_comm]
        congr 1
        omega]
    simp [List.append_assoc]

/-- Re-basing lemma: applying an ascending batch equals splicing one of
its edits first and then applying the earlier edits unchanged and the
later edits rebased. -/
theorem applyAbs_middle (D : Str) (x : LocEdit)
    (hxb : x.off + x.old.length ≤ D.length) :
    ∀ (L1 L2 : List LocEdit),
      (∀ a ∈ L1, a.off + a.old.length ≤ x.off ∧ a.off ≤ D.length) →
      (∀ b ∈ L2, x.off + x.old.length ≤ b.off ∧ b.off ≤ D.length) →
      applyAbs D (L1 ++ x :: L2) =
        applyAbs (splice D x) (L1 ++ L2.map (shiftE x)) := by
  intro L1
  induction L1 with
  | nil =>
    intro L2 _ hb
    show applyAbs D (x :: L2) = applyAbs (splice D x) (L2.map (shiftE x))
    rw [applyAbs_splice_shift D x hxb L2 hb]
    rfl
  | cons a L1' ih =>
    intro L2 ha hb
    obtain ⟨ha1, ha2⟩ := ha a (List.mem_cons_self _ _)
    show D.take a.off ++ a.new ++
        (applyAbs D (L1' ++ x :: L2)).drop (a.off + a.old.length) =
      (splice D x).take a.off ++ a.new ++
        (applyAbs (splice D x) (L1' ++ L2.map (shiftE x))).drop
          (a.off + a.old.length)
    rw [← ih L2 (fun e he => ha e (List.mem_cons_of_mem _ he)) hb]
    rw [show (splice D x).take a.off = D.take a.off from by
      rw [show splice D x = D.take x.off ++
        (x.new ++ D.drop (x.off + x.old.length)) from by
          show (D.take x.off ++ x.new) ++ D.drop (x.off + x.old.length) = _
          rw [List.append_assoc]]
      rw [take_append_le _ _ a.off (by rw [List.length_take]; omega),
        List.take_take, Nat.min_eq_left (by omega : a.off ≤ x.off)]]

/-- One-at-a-time application along any order with step-wise unique
occurrences equals left-to-right application at the pristine offsets. -/
theorem seq_eq_applyAbs :
    ∀ (p : List EditEntry) (D : Str) (L : List LocEdit),
      List.Pairwise locSep L →
      (∀ e ∈ L, e.old ≠ []) →
      (∀ e ∈ L, matchAt D e.off e.old) →
      p.Perm (L.map LocEdit.toEditEntry) →
      stepsOK D p = true →
      p.foldl (fun acc e => replace1Go acc e.old e.new) D = applyAbs D L := by
  intro p
  induction p with
  | nil =>
    intro D L _ _ _ hperm _
    have hmap : L.map LocEdit.toEditEntry = [] := (hperm.nil_eq).symm
    have hLnil : L = [] := List.map_eq_nil_iff.mp hmap
    subst hLnil
    rfl
  | cons e p' ih =>
    intro D L hpair hne hmat hperm hstep
    have hemem : e ∈ L.map LocEdit.toEditEntry :=
      hperm.subset (List.mem_cons_self _ _)
    obtain ⟨le, hleL, hle⟩ := List.mem_map.mp hemem
    obtain ⟨L1, L2, hL⟩ := List.append_of_mem hleL
    subst hL
    rw [List.pairwise_append] at hpair
    obtain ⟨hP1, hPc, hcross⟩ := hpair
    obtain ⟨hle2, hP2⟩ := List.pairwise_cons.mp hPc
    have hle_mem : le ∈ L1 ++ le :: L2 :=
      List.mem_append_right _ (List.mem_cons_self _ _)
    have hlene : le.old ≠ [] := hne le hle_mem
    have hlemat : matchAt D le.off le.old := hmat le hle_mem
    have hxb : le.off + le.old.length ≤ D.length := matchAt_bound hlene hlemat
    have hstepc : (decide (countPos D e.old = 1) &&
        stepsOK (replace1Go D e.old e.new) p') = true := hstep
    rw [Bool.and_eq_true] at hstepc
    obtain ⟨hs1, hs2⟩ := hstepc
    have hcnt : countPos D e.old = 1 := of_decide_eq_true hs1
    have heold : e.old = le.old := by rw [← hle]
    have henew : e.new = le.new := by rw [← hle]
    have hrepl : replace1Go D e.old e.new = splice D le := by
      rw [heold, henew]
      exact replace1Go_splice hlene (heold ▸ hcnt) hlemat
    have hA1 : ∀ a ∈ L1, a.off + a.old.length ≤ le.off ∧ a.off ≤ D.length := by
      intro a ha
      have hsep := hcross a ha le (List.mem_cons_self _ _)
      unfold locSep at hsep
      exact ⟨hsep, by omega⟩
    have hB2 : ∀ b ∈ L2, le.off + le.old.length ≤ b.off ∧ b.off ≤ D.length := by
      intro b hbm
      have hsep := hle2 b hbm
      unfold locSep at hsep
      have hbmem : b ∈ L1 ++ le :: L2 :=
        List.mem_append_right _ (List.mem_cons_of_mem _ hbm)
      have hbnd := matchAt_bound (hne b hbmem) (hmat b hbmem)
      exact ⟨hsep, by omega⟩
    have hpair' : List.Pairwise locSep (L1 ++ L2.map (shiftE le)) := by
      rw [List.pairwise_append]
      refine ⟨hP1, ?_, ?_⟩
      · rw [List.pairwise_map]
        refine List.Pairwise.imp_of_mem ?_ hP2
        intro a b hamem hbmem hsep
        have haB := (hB2 a hamem).1
        have hbB := (hB2 b hbmem).1
        unfold locSep at hsep ⊢
        rw [show (shiftE le a).off = a.off + le.new.length - le.old.length from rfl,
          show (shiftE le a).old = a.old from rfl,
          show (shiftE le b).off = b.off + le.new.length - le.old.length from rfl]
        omega
      · intro a ha b' hb'
        obtain ⟨b, hbm, rfl⟩ := List.mem_map.mp hb'
        have h1 := (hA1 a ha).1
        have h2 := (hB2 b hbm).1
        unfold locSep
        rw [show (shiftE le b).off = b.off + le.new.length - le.old.length from rfl]
        omega
    have hne' : ∀ y ∈ L1 ++ L2.map (shiftE le), y.old ≠ [] := by
      intro y hy
      rcases List.mem_append.mp hy with h | h
      · exact hne y (List.mem_append_left _ h)
      · obtain ⟨b, hbm, rfl⟩ := List.mem_map.mp h
        rw [show (shiftE le b).old = b.old from rfl]
        exact hne b (List.mem_append_right _ (List.mem_cons_of_mem _ hbm))
    have hmat' : ∀ y ∈ L1 ++ L2.map (shiftE le),
        matchAt (splice D le) y.off y.old := by
      intro y hy
      rcases List.mem_append.mp hy with h | h
      · have hym := hmat y (List.mem_append_left _ h)
        exact matchAt_splice_left (by omega) hym (hA1 y h).1
      · obtain ⟨b, hbm, rfl⟩ := List.mem_map.mp h
        rw [show (shiftE le b).off =
          b.off + le.new.length - le.old.length from rfl,
          show (shiftE le b).old = b.old from rfl]
        have hbmem : b ∈ L1 ++ le :: L2 :=
          List.mem_append_right _ (List.mem_cons_of_mem _ hbm)
        exact matchAt_splice_right hxb (hB2 b hbm).1 (hmat b hbmem)
    have hperm' : p'.Perm ((L1 ++ L2.map (shiftE le)).map LocEdit.toEditEntry) := by
      have hmapeq : (L1 ++ L2.map (shiftE le)).map LocEdit.toEditEntry =
          L1.map LocEdit.toEditEntry ++ L2.map LocEdit.toEditEntry := by
        rw [List.map_append, List.map_map]
        congr 1
      rw [hmapeq]
      have hsplit : (L1 ++ le :: L2).map LocEdit.toEditEntry =
          L1.map LocEdit.toEditEntry ++
            e :: L2.map LocEdit.toEditEntry := by
        rw [List.map_append, ← hle]
        rfl
      rw [hsplit] at hperm
      exact (hperm.trans List.perm_middle).cons_inv
    have hstep' : stepsOK (splice D le) p' = true := by
      rw [← hrepl]
      exact hs2
    rw [show (e :: p').foldl (fun acc e => replace1Go acc e.old e.new) D =
      p'.foldl (fun acc e => replace1Go acc e.old e.new)
        (replace1Go D e.old e.new) from rfl]
    rw [hrepl]
    rw [ih (splice D le) (L1 ++ L2.map (shiftE le)) hpair' hne' hmat' hperm' hstep']
    exact (applyAbs_middle D le hxb L1 L2 hA1 hB2).symm

/-- C2 counterexample: in D = "ab" with edits a→b (offset 0) and b→c
(offset 1) both old_texts occur exactly once and the ranges are disjoint,
yet one-at-a-time application in the given order yields "cb" — the first
edit manufactures a new "b" that the second edit's leftmost search then
hits — while the batch yields "bc". -/
theorem batch_order_counterexample :
    countPos ['a', 'b'] ['a'] = 1 ∧ countPos ['a', 'b'] ['b'] = 1 ∧
    List.Pairwise locSep [⟨⟨['a'], ['b']⟩, 0⟩, ⟨⟨['b'], ['c']⟩, 1⟩] ∧
    matchAt ['a', 'b'] 0 ['a'] ∧ matchAt ['a', 'b'] 1 ['b'] ∧
    ([⟨['a'], ['b']⟩, ⟨['b'], ['c']⟩] : List EditEntry).foldl
        (fun acc e => replace1Go acc e.old e.new) ['a', 'b'] ≠
      batchApplyGo ['a', 'b'] [⟨⟨['a'], ['b']⟩, 0⟩, ⟨⟨['b'], ['c']⟩, 1⟩] := by
  decide

/-- **C2** (amended).  Batch edit order-independence: for a located batch
whose matched ranges are ascending and pairwise non-overlapping, and any
order of one-at-a-time application in which every `old_text` occurs
exactly once in the document as it stands when that edit is applied, the
one-at-a-time result equals the batch engine's sort-descending-and-splice
result over the pristine document. -/
theorem batch_edit_order_independence (D : Str) (L : List LocEdit)
    (p : List EditEntry)
    (hpair : List.Pairwise locSep L)
    (hne : ∀ e ∈ L, e.old ≠ [])
    (hmat : ∀ e ∈ L, matchAt D e.off e.old)
    (hperm : p.Perm (L.map LocEdit.toEditEntry))
    (hstep : stepsOK D p = true) :
    p.foldl (fun acc e => replace1Go acc e.old e.new) D = batchApplyGo D L := by
  rw [seq_eq_applyAbs p D L hpair hne hmat hperm hstep]
  exact (batchApplyGo_eq_applyAbs D L hpair hne hmat).symm

/-- Witness for the amended C2: D = "ab", edits a→x at 0 and b→y at 1,
applied one at a time in the reversed order. -/
theorem batch_edit_order_independence_witness :
    ([⟨['b'], ['y']⟩, ⟨['a'], ['x']⟩] : List EditEntry).foldl
        (fun acc e => replace1Go acc e.old e.new) ['a', 'b'] =
      batchApplyGo ['a', 'b'] [⟨⟨['a'], ['x']⟩, 0⟩, ⟨⟨['b'], ['y']⟩, 1⟩] :=
  batch_edit_order_independence ['a', 'b']
    [⟨⟨['a'], ['x']⟩, 0⟩, ⟨⟨['b'], ['y']⟩, 1⟩]
    [⟨['b'], ['y']⟩, ⟨['a'], ['x']⟩]
    (by decide) (by decide) (by decide) (by decide) (by decide)

end ObsidianMCP
